import Mathlib

/-!
# kalman_sense: unscented Kalman filter for a quadrotor

A shallow embedding of `src/UnscentedKf.cpp`, `src/QuadUkf.cpp` and
`src/QuadUkf.h`.

Conventions of the embedding:

* `double` is idealised as an ordered field `K`; the square root used by Eigen's
  `norm`/`normalize` is passed as a function `sqrt : K → K`. Theorems that depend on the
  square root are stated over `ℝ` with `Real.sqrt`, the others over any ordered field.
* `Eigen::VectorXd` of size `n` is `Fin n → K`, `Eigen::MatrixXd` of size `r × c`
  is `Matrix (Fin r) (Fin c) K`.
* The operations of the Eigen library that the sources call are collected in the
  namespace `Eigen` below.
* Members declared in `UnscentedKf.h` (not among the sources) are parameters of
  the functions that read them, or are modelled from the specification where a
  claim depends on their value.
-/

namespace KalmanSense

/-! ## Eigen adapter -/

namespace Eigen

variable {K : Type} [LinearOrderedField K]

/-- Eigen `squaredNorm()`: the sum of the squares of the coefficients. -/
def squaredNorm {n : Nat} (v : Fin n → K) : K := ∑ i, v i * v i

/-- Eigen `norm()`: the square root of `squaredNorm()`. -/
def norm (sqrt : K → K) {n : Nat} (v : Fin n → K) : K := sqrt (squaredNorm v)

/-- Eigen `normalized()` / `normalize()`: divide by the norm when the squared norm
is positive, leave the vector alone otherwise. -/
def normalized (sqrt : K → K) {n : Nat} (v : Fin n → K) : Fin n → K :=
  let z := squaredNorm v
  if z > 0 then fun i => v i / sqrt z else v

/-- Eigen `Quaterniond`: four coefficients stored in the order x, y, z, w. -/
@[ext]
structure Quaterniond (K : Type) where
  coeffs : Fin 4 → K

/-- Coefficient x of a quaternion. -/
def Quaterniond.x (q : Quaterniond K) : K := q.coeffs 0

/-- Coefficient y of a quaternion. -/
def Quaterniond.y (q : Quaterniond K) : K := q.coeffs 1

/-- Coefficient z of a quaternion. -/
def Quaterniond.z (q : Quaterniond K) : K := q.coeffs 2

/-- Coefficient w of a quaternion. -/
def Quaterniond.w (q : Quaterniond K) : K := q.coeffs 3

/-- Eigen `Quaterniond::normalized()`: normalises the coefficient vector. -/
def Quaterniond.normalized (sqrt : K → K) (q : Quaterniond K) : Quaterniond K :=
  ⟨Eigen.normalized sqrt q.coeffs⟩

/-- Eigen `Quaterniond::toRotationMatrix()`. -/
def Quaterniond.toRotationMatrix (q : Quaterniond K) : Matrix (Fin 3) (Fin 3) K :=
  let tx := 2 * q.x
  let ty := 2 * q.y
  let tz := 2 * q.z
  let twx := tx * q.w
  let twy := ty * q.w
  let twz := tz * q.w
  let txx := tx * q.x
  let txy := ty * q.x
  let txz := tz * q.x
  let tyy := ty * q.y
  let tyz := tz * q.y
  let tzz := tz * q.z
  !![1 - (tyy + tzz), txy - twz, txz + twy;
     txy + twz, 1 - (txx + tzz), tyz - twx;
     txz - twy, tyz + twx, 1 - (txx + tyy)]

/-- Eigen `MatrixXd::inverse()`: the inverse of an invertible matrix, computed here
as adjugate over determinant (the value on a singular matrix is not meaningful). -/
def inverse {m : Nat} (A : Matrix (Fin m) (Fin m) K) : Matrix (Fin m) (Fin m) K :=
  (A.det)⁻¹ • A.adjugate

/-- Eigen `LDLT::matrixL()`: the unit lower triangular view of the matrix in which
the factorization is stored. -/
def matrixL {n : Nat} (stored : Matrix (Fin n) (Fin n) K) : Matrix (Fin n) (Fin n) K :=
  fun i j => if i = j then 1 else if j < i then stored i j else 0

end Eigen

/-! ## QuadUkf: quaternion continuity -/

namespace QuadUkf

open Eigen

variable {K : Type} [LinearOrderedField K]

/-- `QuadUkf::checkQuat`. -/
def checkQuat (sqrt : K → K) (lastQuat nextQuat : Quaterniond K) : Quaterniond K :=
  let lastVec := (lastQuat.normalized sqrt).coeffs
  let nextVec := (nextQuat.normalized sqrt).coeffs
  let sum := Eigen.norm sqrt (lastVec + nextVec)
  let diff := Eigen.norm sqrt (lastVec - nextVec)
  if sum > diff then ⟨nextVec⟩ else ⟨-nextVec⟩

end QuadUkf

/-! ## UnscentedKf: the generic engine -/

namespace UnscentedKf

open Eigen

variable {K : Type} [LinearOrderedField K]

/-- `UnscentedKf::SigmaPointSet`: a mean vector and the sigma points, one per column. -/
structure SigmaPointSet (K : Type) (n L : Nat) where
  vector : Fin n → K
  sigmaPoints : Matrix (Fin n) (Fin L) K

/-- `UnscentedKf::Transform`, with its members in the order of the aggregate
initialisation `{vec, sigmas, cov, devs}`. -/
structure Transform (K : Type) (n L : Nat) where
  vector : Fin n → K
  sigmaPoints : Matrix (Fin n) (Fin L) K
  covariance : Matrix (Fin n) (Fin n) K
  deviations : Matrix (Fin n) (Fin L) K

/-- `UnscentedKf::Belief`: a state vector and its covariance. -/
structure Belief (K : Type) (n : Nat) where
  state : Fin n → K
  covariance : Matrix (Fin n) (Fin n) K

/-- Modelled from the spec: the member `meanWeights` is filled by `setWeights`, declared
in `UnscentedKf.h`, which is not among the sources. Central weight `λ/(n+λ)`, the
remaining `2n` weights `1/(2(n+λ))`. -/
def meanWeights (n : Nat) (lambda : K) : Fin (2 * n + 1) → K :=
  fun i => if i.val = 0 then lambda / ((n : K) + lambda) else 1 / (2 * ((n : K) + lambda))

/-- Modelled from the spec: the member `covarianceWeights` is filled by `setWeights`,
declared in `UnscentedKf.h`, which is not among the sources. Central weight
`λ/(n+λ) + (1 − α² + β)`, the remaining `2n` weights `1/(2(n+λ))`. -/
def covarianceWeights (n : Nat) (lambda alpha beta : K) : Fin (2 * n + 1) → K :=
  fun i =>
    if i.val = 0 then lambda / ((n : K) + lambda) + (1 - alpha ^ 2 + beta)
    else 1 / (2 * ((n : K) + lambda))

/-- `UnscentedKf::fillMatrixWithVector`: every column is set to `vec`. -/
def fillMatrixWithVector {numRows : Nat} (vec : Fin numRows → K) (numCols : Nat) :
    Matrix (Fin numRows) (Fin numCols) K :=
  (List.finRange numCols).foldl (fun mat i => mat.updateColumn i vec) 0

/-- `UnscentedKf::computeDeviations`: the sigma points minus the mean, columnwise. -/
def computeDeviations {n L : Nat} (sample : SigmaPointSet K n L) : Matrix (Fin n) (Fin L) K :=
  let vec := sample.vector
  let sigmaPts := sample.sigmaPoints
  let vecMat := fillMatrixWithVector vec L
  sigmaPts - vecMat

/-- `UnscentedKf::computeCovariance`. -/
def computeCovariance {n L : Nat} (deviations : Matrix (Fin n) (Fin L) K) (covWts : Fin L → K)
    (noiseCov : Matrix (Fin n) (Fin n) K) : Matrix (Fin n) (Fin n) K :=
  deviations * Matrix.diagonal covWts * deviations.transpose + noiseCov

/-- `UnscentedKf::sampleStateSpace`: the loop over the columns, which stores the image
of each sigma point and accumulates the weighted mean. -/
def sampleStateSpace {n L : Nat} (processFunc : (Fin n → K) → K → (Fin n → K))
    (sigmaPts : Matrix (Fin n) (Fin L) K) (meanWts : Fin L → K) (dt : K) :
    SigmaPointSet K n L :=
  (List.finRange L).foldl
    (fun acc i =>
      let sigmas := acc.sigmaPoints.updateColumn i (processFunc (fun r => sigmaPts r i) dt)
      ⟨acc.vector + meanWts i • (fun r => sigmas r i), sigmas⟩)
    ⟨0, 0⟩

/-- `UnscentedKf::sampleSensorSpace`: the same loop with the observation function. -/
def sampleSensorSpace {n L : Nat} (numSensors : Nat)
    (observationFunc : (Fin n → K) → (Fin numSensors → K))
    (sigmaPts : Matrix (Fin n) (Fin L) K) (meanWts : Fin L → K) :
    SigmaPointSet K numSensors L :=
  (List.finRange L).foldl
    (fun acc i =>
      let sigmas := acc.sigmaPoints.updateColumn i (observationFunc (fun r => sigmaPts r i))
      ⟨acc.vector + meanWts i • (fun r => sigmas r i), sigmas⟩)
    ⟨0, 0⟩

/-- `UnscentedKf::unscentedStateTransform`. -/
def unscentedStateTransform {n L : Nat} (processFunc : (Fin n → K) → K → (Fin n → K))
    (sigmaPts : Matrix (Fin n) (Fin L) K) (meanWts covWts : Fin L → K)
    (noiseCov : Matrix (Fin n) (Fin n) K) (dt : K) : Transform K n L :=
  let sample := sampleStateSpace processFunc sigmaPts meanWts dt
  let vec := sample.vector
  let sigmas := sample.sigmaPoints
  let devs := computeDeviations sample
  let cov := computeCovariance devs covWts noiseCov
  ⟨vec, sigmas, cov, devs⟩

/-- `UnscentedKf::unscentedSensorTransform`. -/
def unscentedSensorTransform {n L : Nat} (numSensors : Nat)
    (observationFunc : (Fin n → K) → (Fin numSensors → K))
    (sigmaPts : Matrix (Fin n) (Fin L) K) (meanWts covWts : Fin L → K)
    (noiseCov : Matrix (Fin numSensors) (Fin numSensors) K) : Transform K numSensors L :=
  let sample := sampleSensorSpace numSensors observationFunc sigmaPts meanWts
  let vec := sample.vector
  let sigmas := sample.sigmaPoints
  let devs := computeDeviations sample
  let cov := computeCovariance devs covWts noiseCov
  ⟨vec, sigmas, cov, devs⟩

/-- The comma initialiser `sigmaPts << x, B, C`: column 0 is `x`, columns `1..n` are
the columns of `B`, columns `n+1..2n` those of `C`. -/
def commaInit {n : Nat} (x : Fin n → K) (B C : Matrix (Fin n) (Fin n) K) :
    Matrix (Fin n) (Fin (2 * n + 1)) K :=
  fun r j =>
    if h0 : j.val = 0 then x r
    else if h1 : j.val ≤ n then B r ⟨j.val - 1, by omega⟩
    else C r ⟨j.val - 1 - n, by have := j.isLt; omega⟩

/-- Index of the column `x + Aᵢ` in the matrix built by `commaInit`. -/
def colPlus {n : Nat} (i : Fin n) : Fin (2 * n + 1) := ⟨i.val + 1, by omega⟩

/-- Index of the column `x − Aᵢ` in the matrix built by `commaInit`. -/
def colMinus {n : Nat} (i : Fin n) : Fin (2 * n + 1) := ⟨n + 1 + i.val, by omega⟩

/-- `UnscentedKf::computeSigmaPoints`. The argument `ldlt` stands for the Eigen
factorization `Eigen::LDLT<MatrixXd>(P)`: it gives the matrix in which Eigen stores
the factorization, of which `matrixL()` is the unit lower triangular view. -/
def computeSigmaPoints {n : Nat} (ldlt : Matrix (Fin n) (Fin n) K → Matrix (Fin n) (Fin n) K)
    (x : Fin n → K) (P : Matrix (Fin n) (Fin n) K) (scalingCoeff : K) :
    Matrix (Fin n) (Fin (2 * n + 1)) K :=
  let ldltOfCovMat := ldlt P
  let L := matrixL ldltOfCovMat
  let A := scalingCoeff • L
  let Y := fillMatrixWithVector x n
  commaInit x (Y + A) (Y - A)

/-- `UnscentedKf::predictState`. The members `lambda`, `meanWeights` and
`covarianceWeights` of the class are arguments here, as is the virtual `processFunc`. -/
def predictState {n : Nat} (ldlt : Matrix (Fin n) (Fin n) K → Matrix (Fin n) (Fin n) K)
    (processFunc : (Fin n → K) → K → (Fin n → K)) (lambda : K)
    (meanWeights covarianceWeights : Fin (2 * n + 1) → K)
    (x : Fin n → K) (P Q : Matrix (Fin n) (Fin n) K) (dt : K) : Transform K n (2 * n + 1) :=
  let scalingCoeff := (n : K) + lambda
  let sigmaPts := computeSigmaPoints ldlt x P scalingCoeff
  unscentedStateTransform processFunc sigmaPts meanWeights covarianceWeights Q dt

/-- `UnscentedKf::correctState`. The members `meanWeights` and `covarianceWeights` are
arguments, as is the virtual `observationFunc`. -/
def correctState {n m L : Nat} (observationFunc : (Fin n → K) → (Fin m → K))
    (meanWeights covarianceWeights : Fin L → K)
    (stateTf : Transform K n L) (z : Fin m → K) (R : Matrix (Fin m) (Fin m) K) : Belief K n :=
  let xPred := stateTf.vector
  let sensorTf :=
    unscentedSensorTransform m observationFunc stateTf.sigmaPoints meanWeights covarianceWeights R
  let zPred := sensorTf.vector
  let P_zz := sensorTf.covariance
  let P_xz := stateTf.deviations * Matrix.diagonal covarianceWeights * sensorTf.deviations.transpose
  let Kgain := P_xz * inverse P_zz
  let xCorr := xPred + Kgain.mulVec (z - zPred)
  let PPred := stateTf.covariance
  let PCorr := PPred - Kgain * P_xz.transpose
  ⟨xCorr, PCorr⟩

end UnscentedKf

/-! ## QuadUkf: the quadrotor model -/

namespace QuadUkf

open Eigen

variable {K : Type} [LinearOrderedField K]

/-- `QuadUkf::QuadState`. -/
structure QuadState (K : Type) where
  position : Fin 3 → K
  quaternion : Quaterniond K
  velocity : Fin 3 → K
  angular_velocity : Fin 3 → K
  acceleration : Fin 3 → K

/-- `QuadUkf::QuadBelief`. -/
structure QuadBelief (K : Type) where
  timeStamp : K
  dt : K
  state : QuadState K
  covariance : Matrix (Fin 16) (Fin 16) K

/-- `QuadUkf::quadStateToEigen`, with the index layout of `enum stateVars`. -/
def quadStateToEigen (qs : QuadState K) : Fin 16 → K :=
  ![qs.position 0, qs.position 1, qs.position 2,
    qs.quaternion.x, qs.quaternion.y, qs.quaternion.z, qs.quaternion.w,
    qs.velocity 0, qs.velocity 1, qs.velocity 2,
    qs.angular_velocity 0, qs.angular_velocity 1, qs.angular_velocity 2,
    qs.acceleration 0, qs.acceleration 1, qs.acceleration 2]

/-- `QuadUkf::eigenToQuadState`, with the index layout of `enum stateVars`. -/
def eigenToQuadState (x : Fin 16 → K) : QuadState K :=
  { position := ![x 0, x 1, x 2]
    quaternion := ⟨![x 3, x 4, x 5, x 6]⟩
    velocity := ![x 7, x 8, x 9]
    angular_velocity := ![x 10, x 11, x 12]
    acceleration := ![x 13, x 14, x 15] }

/-- The initial state of the constructor `QuadUkf::QuadUkf`: one metre above the origin,
identity orientation, zero rates. -/
def initState : QuadState K :=
  { position := ![0, 0, 1]
    quaternion := ⟨![0, 0, 0, 1]⟩
    velocity := ![0, 0, 0]
    angular_velocity := ![0, 0, 0]
    acceleration := ![0, 0, 0] }

/-- The initial covariance of the constructor `QuadUkf::QuadUkf`: `0.01` times the
identity. -/
def initCov : Matrix (Fin 16) (Fin 16) K := (1 / 100 : K) • (1 : Matrix (Fin 16) (Fin 16) K)

/-- `QuadUkf::generateBigOmegaMat`. -/
def generateBigOmegaMat (w : Fin 3 → K) : Matrix (Fin 4) (Fin 4) K :=
  !![0, w 2, -w 1, w 0;
     -w 2, 0, w 0, w 1;
     w 1, -w 0, 0, w 2;
     -w 0, -w 1, -w 2, 0]

/-- `QuadUkf::processFunc`. The member `lastBelief` it reads is an argument. -/
def processFunc (sqrt : K → K) (lastBelief : QuadBelief K) (x : Fin 16 → K) (dt : K) :
    Fin 16 → K :=
  let prevState0 := eigenToQuadState x
  let prevQuat := prevState0.quaternion.normalized sqrt
  let Omega := generateBigOmegaMat prevState0.angular_velocity
  let currQuat0 : Quaterniond K :=
    ⟨fun i => prevQuat.coeffs i + (((1 / 2 : K) • Omega).mulVec prevQuat.coeffs) i * dt⟩
  let currQuat := currQuat0.normalized sqrt
  let currAcceleration := prevQuat.toRotationMatrix.mulVec prevState0.acceleration
  let currVelocity : Fin 3 → K := fun i =>
    prevState0.velocity i + (1 / 2 : K) * (lastBelief.state.acceleration i + currAcceleration i) * dt
  let currPosition : Fin 3 → K := fun i =>
    prevState0.position i + ((currVelocity i + prevState0.velocity i) / 2) * dt
  let currAngularVelocity := prevState0.angular_velocity
  quadStateToEigen
    { position := currPosition
      quaternion := currQuat
      velocity := currVelocity
      angular_velocity := currAngularVelocity
      acceleration := currAcceleration }

/-- `QuadUkf::observationFunc`: `stateVec.head(numSensors)`. -/
def observationFunc {n : Nat} (numSensors : Nat) (h : numSensors ≤ n) (stateVec : Fin n → K) :
    Fin numSensors → K :=
  fun i => stateVec (Fin.castLE h i)

/-! ### Messages, publishing and the two callbacks -/

/-- `POSE_ARRAY_SIZE` of `QuadUkf.h`: the number of poses kept for plotting. -/
def POSE_ARRAY_SIZE : Nat := 10000

/-- `GRAVITY_ACCEL` of `QuadUkf.h`. -/
def GRAVITY_ACCEL : Fin 3 → K := ![0, 0, -(981 / 100)]

/-- A ROS time stamp: the unsigned fields `sec` and `nsec`. -/
structure Stamp where
  sec : Nat
  nsec : Nat

/-- ROS `toSec()`: seconds plus `1e-9` times nanoseconds. -/
def Stamp.toSec (K : Type) [LinearOrderedField K] (s : Stamp) : K :=
  (s.sec : K) + (s.nsec : K) / 10 ^ 9

/-- ROS `geometry_msgs::Pose`: a position and an orientation with fields x, y, z, w. -/
structure Pose (K : Type) where
  position : Fin 3 → K
  orientation : Quaterniond K

/-- ROS `geometry_msgs::PoseWithCovarianceStamped`: header stamp, pose and the 36-entry
covariance array. -/
structure PoseWithCovarianceStamped (K : Type) where
  stamp : Stamp
  pose : Pose K
  covariance : Fin 36 → K

/-- ROS `sensor_msgs::Imu`, with the fields that `imuCallback` reads. -/
structure Imu (K : Type) where
  stamp : Stamp
  angular_velocity : Fin 3 → K
  linear_acceleration : Fin 3 → K

/-- The mutable members of a `QuadUkf` object. The publishers and the mutex are not
modelled; `H_SensorMap` is never read. -/
structure Members (K : Type) where
  lastBelief : QuadBelief K
  lastPoseMsg : PoseWithCovarianceStamped K
  quadPoseArray : List (Pose K)
  Q_ProcNoiseCov : Matrix (Fin 16) (Fin 16) K
  R_SensorNoiseCov : Matrix (Fin 10) (Fin 10) K

/-- `QuadUkf::quadBeliefToPoseWithCovStamped`. The stamp fields take the integer part of
the time and of the nanoseconds (the conversion of `double` to an unsigned field); the
covariance loop reads the 6×6 block by Eigen's linear index `covMat(i)`, which follows
the column-major storage of `MatrixXd`: entry `i` is row `i % 6`, column `i / 6`. -/
def quadBeliefToPoseWithCovStamped [FloorRing K] (b : QuadBelief K) :
    PoseWithCovarianceStamped K :=
  let covMat : Matrix (Fin 6) (Fin 6) K :=
    fun r c => b.covariance (Fin.castLE (by decide) r) (Fin.castLE (by decide) c)
  { stamp :=
      ⟨⌊b.timeStamp⌋.toNat, ⌊(b.timeStamp - (⌊b.timeStamp⌋ : K)) * 10 ^ 9⌋.toNat⟩
    pose :=
      { position := ![b.state.position 0, b.state.position 1, b.state.position 2]
        orientation :=
          ⟨![b.state.quaternion.x, b.state.quaternion.y, b.state.quaternion.z,
            b.state.quaternion.w]⟩ }
    covariance := fun i =>
      covMat ⟨i.val % 6, Nat.mod_lt _ (by decide)⟩
        ⟨i.val / 6, Nat.div_lt_of_lt_mul i.isLt⟩ }

/-- `QuadUkf::updatePoseArray`, as a function of the stored list of poses: the new pose
is inserted at the front and the last one popped when the size exceeds
`POSE_ARRAY_SIZE`. -/
def updatePoseArray (poses : List (Pose K)) (p : PoseWithCovarianceStamped K) :
    List (Pose K) :=
  let inserted := p.pose :: poses
  if inserted.length > POSE_ARRAY_SIZE then inserted.dropLast else inserted

/-- `QuadUkf::publishAllPoseMessages`, as its effect on the stored list of poses. -/
def publishAllPoseMessages [FloorRing K] (poses : List (Pose K)) (b : QuadBelief K) :
    List (Pose K) :=
  let pwcs := quadBeliefToPoseWithCovStamped b
  updatePoseArray poses pwcs

/-- `QuadUkf::imuCallback`, lines 89–99: the working copy `xB` of the last belief after
the axis remap of the IMU reading and the gravity subtraction. -/
def imuWorkingBelief (lastBelief : QuadBelief K) (msg_in : Imu K) : QuadBelief K :=
  let angular_velocity : Fin 3 → K :=
    ![msg_in.angular_velocity 0, -msg_in.angular_velocity 1, msg_in.angular_velocity 2]
  let acceleration : Fin 3 → K :=
    ![-msg_in.linear_acceleration 0, msg_in.linear_acceleration 1,
      msg_in.linear_acceleration 2]
  let accelerationNoGravity : Fin 3 → K :=
    acceleration - (inverse lastBelief.state.quaternion.toRotationMatrix).mulVec GRAVITY_ACCEL
  { timeStamp := lastBelief.timeStamp
    dt := lastBelief.dt
    state :=
      { position := lastBelief.state.position
        quaternion := lastBelief.state.quaternion
        velocity := lastBelief.state.velocity
        angular_velocity := angular_velocity
        acceleration := accelerationNoGravity }
    covariance := lastBelief.covariance }

/-- `QuadUkf::poseCallback`, lines 126–148: the measurement vector `z` with the axis
remap, the finite-difference velocity and the quaternion chosen by `checkQuat`. -/
def poseMeasurement (sqrt : K → K) (lastBelief : QuadBelief K)
    (lastPoseMsg msg_in : PoseWithCovarianceStamped K) : Fin 10 → K :=
  let zPos : Fin 3 → K :=
    ![-msg_in.pose.position 0, msg_in.pose.position 1, msg_in.pose.position 2]
  let dtPose := msg_in.stamp.toSec K - (lastPoseMsg.stamp.sec : K)
  let zVel : Fin 3 → K := fun i => (zPos i - lastPoseMsg.pose.position i) / dtPose
  let inQuat : Quaterniond K :=
    ⟨![msg_in.pose.orientation.w, -msg_in.pose.orientation.z, msg_in.pose.orientation.y,
      msg_in.pose.orientation.x]⟩
  let chosenQuat := (checkQuat sqrt lastBelief.state.quaternion inQuat).coeffs
  ![zPos 0, zPos 1, zPos 2, chosenQuat 0, chosenQuat 1, chosenQuat 2, chosenQuat 3,
    zVel 0, zVel 1, zVel 2]

/-- `QuadUkf::poseCallback`, lines 150–164: the stored state extrapolated by `dt`. -/
def posePrediction (sqrt : K → K) (lastBelief : QuadBelief K) (dt : K) : QuadState K :=
  let velocity : Fin 3 → K := fun i =>
    lastBelief.state.velocity i + lastBelief.state.acceleration i * dt
  let position : Fin 3 → K := fun i =>
    (velocity i + lastBelief.state.velocity i) / 2 * dt + lastBelief.state.position i
  let Omega := generateBigOmegaMat lastBelief.state.angular_velocity
  let quat0 : Quaterniond K :=
    ⟨fun i => lastBelief.state.quaternion.coeffs i
      + (((1 / 2 : K) • Omega).mulVec lastBelief.state.quaternion.coeffs) i * dt⟩
  { position := position
    quaternion := quat0.normalized sqrt
    velocity := velocity
    angular_velocity := lastBelief.state.angular_velocity
    acceleration := lastBelief.state.acceleration }

/-- `QuadUkf::poseCallback`, as a transition of the members. The four-argument
`correctState(xPred, P, z, R)` that it calls is declared in `UnscentedKf.h`, which is not
among the sources, and is an argument here. No statement of the function assigns
`lastPoseMsg`. -/
def poseCallback [FloorRing K] (sqrt : K → K)
    (correctState4 : (Fin 16 → K) → Matrix (Fin 16) (Fin 16) K → (Fin 10 → K)
      → Matrix (Fin 10) (Fin 10) K → UnscentedKf.Belief K 16)
    (self : Members K) (msg_in : PoseWithCovarianceStamped K) : Members K :=
  let z := poseMeasurement sqrt self.lastBelief self.lastPoseMsg msg_in
  let dt := msg_in.stamp.toSec K - self.lastBelief.timeStamp
  let xPred := quadStateToEigen (posePrediction sqrt self.lastBelief dt)
  let P := self.lastBelief.covariance
  let currStateAndCov := correctState4 xPred P z self.R_SensorNoiseCov
  let lastBelief : QuadBelief K :=
    { timeStamp := msg_in.stamp.toSec K
      dt := dt
      state := eigenToQuadState currStateAndCov.state
      covariance := currStateAndCov.covariance }
  { lastBelief := lastBelief
    lastPoseMsg := self.lastPoseMsg
    quadPoseArray := publishAllPoseMessages self.quadPoseArray lastBelief
    Q_ProcNoiseCov := self.Q_ProcNoiseCov
    R_SensorNoiseCov := self.R_SensorNoiseCov }

/-- The constructor `QuadUkf::QuadUkf`, given the time `ros::Time::now().toSec()`: the
initial belief, the noise covariances, the stored pose message (its `sec` field and its
position are set, the other fields keep the zero default of the message) and the empty
pose array. -/
def construct [FloorRing K] (initTimeStamp : K) : Members K :=
  { lastBelief :=
      { timeStamp := initTimeStamp
        dt := 1 / 10000
        state := initState
        covariance := initCov }
    lastPoseMsg :=
      { stamp := ⟨⌊initTimeStamp⌋.toNat, 0⟩
        pose := { position := ![0, 0, 1], orientation := ⟨![0, 0, 0, 0]⟩ }
        covariance := fun _ => 0 }
    quadPoseArray := []
    Q_ProcNoiseCov := (1 / 100 : K) • (1 : Matrix (Fin 16) (Fin 16) K)
    R_SensorNoiseCov := (1 / 100 : K) • (1 : Matrix (Fin 10) (Fin 10) K) }

end QuadUkf

/-! ## The correction step as the specification words it -/

namespace Spec

variable {K : Type} [LinearOrderedField K]

/-- Spec, §4.1 "Unscented sensor transform": the weighted mean `ẑ = Σ wᵐᵢ Zᵢ` of the
observed sigma points `Zᵢ = h(sigmaᵢ)`. -/
def sensorMean {n m L : Nat} (h : (Fin n → K) → (Fin m → K))
    (sigmas : Matrix (Fin n) (Fin L) K) (wm : Fin L → K) : Fin m → K :=
  ∑ i, wm i • h (fun r => sigmas r i)

/-- Spec, §4.1: the sensor deviations `Dz = Z − [ẑ,…,ẑ]`. -/
def sensorDeviations {n m L : Nat} (h : (Fin n → K) → (Fin m → K))
    (sigmas : Matrix (Fin n) (Fin L) K) (wm : Fin L → K) : Matrix (Fin m) (Fin L) K :=
  fun j i => h (fun r => sigmas r i) j - sensorMean h sigmas wm j

/-- Spec, §4.1: the innovation covariance `Pzz = Dz·diag(wᶜ)·Dzᵀ + R`. -/
def innovationCovariance {n m L : Nat} (h : (Fin n → K) → (Fin m → K))
    (sigmas : Matrix (Fin n) (Fin L) K) (wm wc : Fin L → K) (R : Matrix (Fin m) (Fin m) K) :
    Matrix (Fin m) (Fin m) K :=
  sensorDeviations h sigmas wm * Matrix.diagonal wc * (sensorDeviations h sigmas wm).transpose + R

/-- Spec, §4.1 "Correct": the cross-covariance `Pxz = Dx·diag(wᶜ)·Dzᵀ`. -/
def crossCovariance {n m L : Nat} (h : (Fin n → K) → (Fin m → K))
    (Dx : Matrix (Fin n) (Fin L) K) (sigmas : Matrix (Fin n) (Fin L) K) (wm wc : Fin L → K) :
    Matrix (Fin n) (Fin m) K :=
  Dx * Matrix.diagonal wc * (sensorDeviations h sigmas wm).transpose

/-- Spec, §7: the error kinds. -/
inductive ErrorKind where
  | StateDegenerate
  | ObservationDegenerate
  | Timeout
  | NumericNonFinite

/-- Spec, §4.1 "Correct" with its numerical edge case: the correction fails with
`ObservationDegenerate` when `Pzz` is singular, and otherwise returns
`x + K·(z − ẑ)` and `P − K·Pxzᵀ` with `K = Pxz·Pzz⁻¹`. -/
def correct {n m L : Nat} (h : (Fin n → K) → (Fin m → K)) (wm wc : Fin L → K)
    (stateTf : UnscentedKf.Transform K n L) (z : Fin m → K) (R : Matrix (Fin m) (Fin m) K) :
    Except ErrorKind (UnscentedKf.Belief K n) :=
  let Pzz := innovationCovariance h stateTf.sigmaPoints wm wc R
  if Pzz.det = 0 then Except.error ErrorKind.ObservationDegenerate
  else
    let Pxz := crossCovariance h stateTf.deviations stateTf.sigmaPoints wm wc
    let Kgain := Pxz * Eigen.inverse Pzz
    Except.ok
      ⟨stateTf.vector + Kgain.mulVec (z - sensorMean h stateTf.sigmaPoints wm),
        stateTf.covariance - Kgain * Pxz.transpose⟩

end Spec

/-! ## Theorems -/

section EigenLemmas

open Eigen

theorem squaredNorm_nonneg {n : Nat} (v : Fin n → ℝ) : 0 ≤ squaredNorm v :=
  Finset.sum_nonneg (fun i _ => mul_self_nonneg (v i))

theorem squaredNorm_four (v : Fin 4 → ℝ) :
    squaredNorm v = v 0 * v 0 + v 1 * v 1 + v 2 * v 2 + v 3 * v 3 := by
  simp [squaredNorm, Fin.sum_univ_four]

/-- A vector of norm one is its own normalisation. -/
theorem normalized_of_norm_one {n : Nat} (v : Fin n → ℝ) (h : Eigen.norm Real.sqrt v = 1) :
    normalized Real.sqrt v = v := by
  have hz : squaredNorm v = 1 := by
    have := h
    unfold Eigen.norm at this
    exact (Real.sqrt_eq_one).1 this
  unfold normalized
  simp [hz]

/-- The sum norm exceeds the difference norm exactly when the dot product is positive. -/
theorem norm_add_gt_norm_sub_iff (l v : Fin 4 → ℝ) :
    Eigen.norm Real.sqrt (l + v) > Eigen.norm Real.sqrt (l - v) ↔
      0 < l 0 * v 0 + l 1 * v 1 + l 2 * v 2 + l 3 * v 3 := by
  unfold Eigen.norm
  rw [gt_iff_lt, Real.sqrt_lt_sqrt_iff (squaredNorm_nonneg _), squaredNorm_four, squaredNorm_four]
  simp only [Pi.add_apply, Pi.sub_apply]
  constructor <;> intro h <;> nlinarith

theorem squaredNorm_neg {K : Type} [LinearOrderedField K] {n : Nat} (v : Fin n → K) :
    squaredNorm (-v) = squaredNorm v := by
  simp [squaredNorm]

/-- Normalisation commutes with negation, for any square-root function. -/
theorem normalized_neg {K : Type} [LinearOrderedField K] (sqrt : K → K) {n : Nat}
    (v : Fin n → K) :
    normalized sqrt (-v) = -normalized sqrt v := by
  unfold normalized
  simp only [squaredNorm_neg]
  split_ifs
  · funext i
    simp [neg_div]
  · rfl

/-- The dot product of the normalisations of two 4-vectors has the sign of the dot
product of the vectors, when the latter is not zero. -/
theorem normalized_dot (l v : Fin 4 → ℝ)
    (h : l 0 * v 0 + l 1 * v 1 + l 2 * v 2 + l 3 * v 3 ≠ 0) :
    normalized Real.sqrt l 0 * normalized Real.sqrt v 0
        + normalized Real.sqrt l 1 * normalized Real.sqrt v 1
        + normalized Real.sqrt l 2 * normalized Real.sqrt v 2
        + normalized Real.sqrt l 3 * normalized Real.sqrt v 3
      = (l 0 * v 0 + l 1 * v 1 + l 2 * v 2 + l 3 * v 3)
          / (Real.sqrt (squaredNorm l) * Real.sqrt (squaredNorm v))
      ∧ 0 < Real.sqrt (squaredNorm l) * Real.sqrt (squaredNorm v) := by
  have hl : 0 < squaredNorm l := by
    rcases (squaredNorm_nonneg l).lt_or_eq with h1 | h1
    · exact h1
    · exfalso
      apply h
      rw [squaredNorm_four] at h1
      have e0 : l 0 = 0 := by nlinarith [mul_self_nonneg (l 0), mul_self_nonneg (l 1), mul_self_nonneg (l 2), mul_self_nonneg (l 3)]
      have e1 : l 1 = 0 := by nlinarith [mul_self_nonneg (l 0), mul_self_nonneg (l 1), mul_self_nonneg (l 2), mul_self_nonneg (l 3)]
      have e2 : l 2 = 0 := by nlinarith [mul_self_nonneg (l 0), mul_self_nonneg (l 1), mul_self_nonneg (l 2), mul_self_nonneg (l 3)]
      have e3 : l 3 = 0 := by nlinarith [mul_self_nonneg (l 0), mul_self_nonneg (l 1), mul_self_nonneg (l 2), mul_self_nonneg (l 3)]
      simp [e0, e1, e2, e3]
  have hv : 0 < squaredNorm v := by
    rcases (squaredNorm_nonneg v).lt_or_eq with h1 | h1
    · exact h1
    · exfalso
      apply h
      rw [squaredNorm_four] at h1
      have e0 : v 0 = 0 := by nlinarith [mul_self_nonneg (v 0), mul_self_nonneg (v 1), mul_self_nonneg (v 2), mul_self_nonneg (v 3)]
      have e1 : v 1 = 0 := by nlinarith [mul_self_nonneg (v 0), mul_self_nonneg (v 1), mul_self_nonneg (v 2), mul_self_nonneg (v 3)]
      have e2 : v 2 = 0 := by nlinarith [mul_self_nonneg (v 0), mul_self_nonneg (v 1), mul_self_nonneg (v 2), mul_self_nonneg (v 3)]
      have e3 : v 3 = 0 := by nlinarith [mul_self_nonneg (v 0), mul_self_nonneg (v 1), mul_self_nonneg (v 2), mul_self_nonneg (v 3)]
      simp [e0, e1, e2, e3]
  have sl : 0 < Real.sqrt (squaredNorm l) := Real.sqrt_pos.2 hl
  have sv : 0 < Real.sqrt (squaredNorm v) := Real.sqrt_pos.2 hv
  refine ⟨?_, mul_pos sl sv⟩
  unfold normalized
  simp only [gt_iff_lt, hl, hv, if_true]
  field_simp

end EigenLemmas

section CheckQuat

open Eigen QuadUkf

/-- On unit quaternions `checkQuat` compares the two norms of the unnormalised
coefficient vectors. -/
theorem checkQuat_of_unit (q_prev q_new : Quaterniond ℝ)
    (hprev : Eigen.norm Real.sqrt q_prev.coeffs = 1)
    (hnew : Eigen.norm Real.sqrt q_new.coeffs = 1) :
    checkQuat Real.sqrt q_prev q_new =
      if Eigen.norm Real.sqrt (q_prev.coeffs + q_new.coeffs)
          > Eigen.norm Real.sqrt (q_prev.coeffs - q_new.coeffs)
      then q_new else ⟨-q_new.coeffs⟩ := by
  unfold checkQuat Quaterniond.normalized
  simp only [normalized_of_norm_one _ hprev, normalized_of_norm_one _ hnew]

/-- C1: for unit quaternions `q_prev` and `q_new`, `checkQuat` returns `q_new` when the
norm of the sum exceeds the norm of the difference, and `-q_new` otherwise. -/
theorem checkQuat_sum_diff_rule (q_prev q_new : Quaterniond ℝ)
    (hprev : Eigen.norm Real.sqrt q_prev.coeffs = 1)
    (hnew : Eigen.norm Real.sqrt q_new.coeffs = 1) :
    (Eigen.norm Real.sqrt (q_prev.coeffs + q_new.coeffs)
          > Eigen.norm Real.sqrt (q_prev.coeffs - q_new.coeffs) →
        checkQuat Real.sqrt q_prev q_new = q_new)
      ∧ (¬ Eigen.norm Real.sqrt (q_prev.coeffs + q_new.coeffs)
          > Eigen.norm Real.sqrt (q_prev.coeffs - q_new.coeffs) →
        checkQuat Real.sqrt q_prev q_new = ⟨-q_new.coeffs⟩) := by
  rw [checkQuat_of_unit q_prev q_new hprev hnew]
  constructor
  · intro h
    rw [if_pos h]
  · intro h
    rw [if_neg h]

/-- Witness of C1: the identity orientation and its negation are unit quaternions, and
`checkQuat` answers by the sum/difference rule on them. -/
theorem checkQuat_sum_diff_rule_witness :
    (Eigen.norm Real.sqrt ((![0, 0, 0, 1] : Fin 4 → ℝ) + ![0, 0, 0, -1])
          > Eigen.norm Real.sqrt ((![0, 0, 0, 1] : Fin 4 → ℝ) - ![0, 0, 0, -1]) →
        checkQuat Real.sqrt (⟨![0, 0, 0, 1]⟩ : Quaterniond ℝ) ⟨![0, 0, 0, -1]⟩
          = ⟨![0, 0, 0, -1]⟩)
      ∧ (¬ Eigen.norm Real.sqrt ((![0, 0, 0, 1] : Fin 4 → ℝ) + ![0, 0, 0, -1])
          > Eigen.norm Real.sqrt ((![0, 0, 0, 1] : Fin 4 → ℝ) - ![0, 0, 0, -1]) →
        checkQuat Real.sqrt (⟨![0, 0, 0, 1]⟩ : Quaterniond ℝ) ⟨![0, 0, 0, -1]⟩
          = ⟨-![0, 0, 0, -1]⟩) :=
  checkQuat_sum_diff_rule ⟨![0, 0, 0, 1]⟩ ⟨![0, 0, 0, -1]⟩
    (by simp [Eigen.norm, squaredNorm, Fin.sum_univ_four])
    (by simp [Eigen.norm, squaredNorm, Fin.sum_univ_four])

/-- Counterexample to C2 as stated: for the stored orientation `(0,0,0,1)` and the
measurement `(1,0,0,0)`, orthogonal to it as a 4-vector, the sum and difference norms
are equal, and `checkQuat` returns `(-1,0,0,0)` for `q` but `(1,0,0,0)` for `-q`. -/
theorem checkQuat_double_cover_counterexample :
    checkQuat Real.sqrt (⟨![0, 0, 0, 1]⟩ : Quaterniond ℝ) ⟨![1, 0, 0, 0]⟩ = ⟨![-1, 0, 0, 0]⟩
      ∧ checkQuat Real.sqrt (⟨![0, 0, 0, 1]⟩ : Quaterniond ℝ) ⟨-![1, 0, 0, 0]⟩ = ⟨![1, 0, 0, 0]⟩
      ∧ checkQuat Real.sqrt (⟨![0, 0, 0, 1]⟩ : Quaterniond ℝ) ⟨![1, 0, 0, 0]⟩
          ≠ checkQuat Real.sqrt (⟨![0, 0, 0, 1]⟩ : Quaterniond ℝ) ⟨-![1, 0, 0, 0]⟩ := by
  have h1 : Eigen.norm Real.sqrt (Quaterniond.coeffs (⟨![0, 0, 0, 1]⟩ : Quaterniond ℝ)) = 1 := by
    simp [Eigen.norm, squaredNorm, Fin.sum_univ_four]
  have h2 : Eigen.norm Real.sqrt (Quaterniond.coeffs (⟨![1, 0, 0, 0]⟩ : Quaterniond ℝ)) = 1 := by
    simp [Eigen.norm, squaredNorm, Fin.sum_univ_four]
  have h3 : Eigen.norm Real.sqrt (Quaterniond.coeffs (⟨-![1, 0, 0, 0]⟩ : Quaterniond ℝ)) = 1 := by
    simp [Eigen.norm, squaredNorm, Fin.sum_univ_four]
  have e1 : checkQuat Real.sqrt (⟨![0, 0, 0, 1]⟩ : Quaterniond ℝ) ⟨![1, 0, 0, 0]⟩
      = ⟨![-1, 0, 0, 0]⟩ := by
    rw [checkQuat_of_unit ⟨![0, 0, 0, 1]⟩ ⟨![1, 0, 0, 0]⟩ h1 h2,
      if_neg (by rw [norm_add_gt_norm_sub_iff]; simp)]
    simp
  have e2 : checkQuat Real.sqrt (⟨![0, 0, 0, 1]⟩ : Quaterniond ℝ) ⟨-![1, 0, 0, 0]⟩
      = ⟨![1, 0, 0, 0]⟩ := by
    rw [checkQuat_of_unit ⟨![0, 0, 0, 1]⟩ ⟨-![1, 0, 0, 0]⟩ h1 h3,
      if_neg (by rw [norm_add_gt_norm_sub_iff]; simp)]
    simp
  refine ⟨e1, e2, ?_⟩
  rw [e1, e2]
  intro h
  have := congrArg (fun q : Quaterniond ℝ => q.coeffs 0) h
  norm_num at this

/-- In exact real arithmetic the two norms that `checkQuat` compares differ as soon as
the 4-vector dot product of the two quaternions is not zero, and `checkQuat` then
resolves a quaternion and its negation to the same quaternion. -/
theorem checkQuat_double_cover_of_dot_ne_zero (q_prev q : Quaterniond ℝ)
    (hdot : q_prev.coeffs 0 * q.coeffs 0 + q_prev.coeffs 1 * q.coeffs 1
        + q_prev.coeffs 2 * q.coeffs 2 + q_prev.coeffs 3 * q.coeffs 3 ≠ 0) :
    checkQuat Real.sqrt q_prev q = checkQuat Real.sqrt q_prev ⟨-q.coeffs⟩ := by
  obtain ⟨hd, hpos⟩ := normalized_dot q_prev.coeffs q.coeffs hdot
  unfold checkQuat Quaterniond.normalized
  simp only [normalized_neg, norm_add_gt_norm_sub_iff, Pi.neg_apply, mul_neg, neg_neg]
  rcases lt_or_gt_of_ne hdot with hneg | hpos'
  · have hlt := div_neg_of_neg_of_pos hneg hpos
    rw [← hd] at hlt
    rw [if_neg (by linarith), if_pos (by linarith)]
  · have hgt := div_pos hpos' hpos
    rw [← hd] at hgt
    rw [if_pos (by linarith), if_neg (by linarith)]

/-- C2 (amended): the outcome is decided by the two norms that `checkQuat` itself
computes, `‖q̂_prev + q̂‖` and `‖q̂_prev − q̂‖` on the normalised inputs, with whatever
square root it uses. When the two norms differ, `checkQuat` resolves a measurement
quaternion and its negation to the same quaternion; when they are equal, the strict test
fails for both and the result for `−q` is the negation of the result for `q`. -/
theorem checkQuat_double_cover {K : Type} [LinearOrderedField K] (sqrt : K → K)
    (q_prev q : Quaterniond K) :
    (Eigen.norm sqrt ((q_prev.normalized sqrt).coeffs + (q.normalized sqrt).coeffs)
          ≠ Eigen.norm sqrt ((q_prev.normalized sqrt).coeffs - (q.normalized sqrt).coeffs) →
        checkQuat sqrt q_prev q = checkQuat sqrt q_prev ⟨-q.coeffs⟩)
      ∧ (Eigen.norm sqrt ((q_prev.normalized sqrt).coeffs + (q.normalized sqrt).coeffs)
          = Eigen.norm sqrt ((q_prev.normalized sqrt).coeffs - (q.normalized sqrt).coeffs) →
        (checkQuat sqrt q_prev ⟨-q.coeffs⟩).coeffs = -(checkQuat sqrt q_prev q).coeffs) := by
  have hneg : Eigen.normalized sqrt (-q.coeffs) = -Eigen.normalized sqrt q.coeffs :=
    normalized_neg sqrt q.coeffs
  constructor
  · intro hne
    unfold checkQuat Quaterniond.normalized at *
    simp only [hneg, sub_neg_eq_add, ← sub_eq_add_neg, neg_neg] at *
    rcases lt_or_gt_of_ne hne with h | h
    · rw [if_neg h.not_lt, if_pos h]
    · rw [if_pos h, if_neg h.not_lt]
  · intro heq
    unfold checkQuat Quaterniond.normalized at *
    simp only [hneg, sub_neg_eq_add, ← sub_eq_add_neg, neg_neg] at *
    rw [if_neg (by rw [heq]; exact lt_irrefl _), if_neg (by rw [heq]; exact lt_irrefl _)]
    simp

/-- Witness of C2 (amended), over the reals. For the stored orientation `(0,0,0,1)` and
the unit measurement `(0, 3/5, 0, 4/5)` the two norms differ and both signs resolve to
the same quaternion; for the measurement `(1,0,0,0)` the two norms are equal and the two
results are opposite. -/
theorem checkQuat_double_cover_witness :
    checkQuat Real.sqrt (⟨![0, 0, 0, 1]⟩ : Quaterniond ℝ) ⟨![0, 3 / 5, 0, 4 / 5]⟩
        = checkQuat Real.sqrt (⟨![0, 0, 0, 1]⟩ : Quaterniond ℝ) ⟨-![0, 3 / 5, 0, 4 / 5]⟩
      ∧ (checkQuat Real.sqrt (⟨![0, 0, 0, 1]⟩ : Quaterniond ℝ) ⟨-![1, 0, 0, 0]⟩).coeffs
        = -(checkQuat Real.sqrt (⟨![0, 0, 0, 1]⟩ : Quaterniond ℝ) ⟨![1, 0, 0, 0]⟩).coeffs := by
  have h1 : (Quaterniond.normalized Real.sqrt (⟨![0, 0, 0, 1]⟩ : Quaterniond ℝ)).coeffs
      = ![0, 0, 0, 1] :=
    normalized_of_norm_one _ (by simp [Eigen.norm, squaredNorm, Fin.sum_univ_four])
  have h2 : (Quaterniond.normalized Real.sqrt
      (⟨![0, 3 / 5, 0, 4 / 5]⟩ : Quaterniond ℝ)).coeffs = ![0, 3 / 5, 0, 4 / 5] :=
    normalized_of_norm_one _ (by
      simp only [Eigen.norm, squaredNorm, Fin.sum_univ_four]
      norm_num)
  have h3 : (Quaterniond.normalized Real.sqrt (⟨![1, 0, 0, 0]⟩ : Quaterniond ℝ)).coeffs
      = ![1, 0, 0, 0] :=
    normalized_of_norm_one _ (by simp [Eigen.norm, squaredNorm, Fin.sum_univ_four])
  refine ⟨(checkQuat_double_cover Real.sqrt ⟨![0, 0, 0, 1]⟩ ⟨![0, 3 / 5, 0, 4 / 5]⟩).1 ?_,
    (checkQuat_double_cover Real.sqrt ⟨![0, 0, 0, 1]⟩ ⟨![1, 0, 0, 0]⟩).2 ?_⟩
  · rw [h1, h2]
    apply ne_of_gt
    apply (norm_add_gt_norm_sub_iff _ _).2
    simp
  · rw [h1, h3]
    unfold Eigen.norm
    congr 1
    simp [squaredNorm, Fin.sum_univ_four]

end CheckQuat

section EngineLemmas

open Eigen UnscentedKf

/-- Setting columns in a loop: a column that the loop visits holds the value written
there, any other column keeps its initial value. -/
theorem foldl_updateColumn_apply {K : Type} {n L : Nat} (g : Fin L → Fin n → K)
    (l : List (Fin L)) (M0 : Matrix (Fin n) (Fin L) K) (r : Fin n) (i : Fin L) :
    (l.foldl (fun mat j => mat.updateColumn j (g j)) M0) r i
      = if i ∈ l then g i r else M0 r i := by
  induction l generalizing M0 with
  | nil => simp
  | cons a l ih =>
    rw [List.foldl_cons, ih]
    by_cases h : i ∈ l
    · simp [h]
    · by_cases ha : i = a
      · subst ha
        simp [h]
      · simp [h, ha, Matrix.updateColumn_ne ha]

variable {K : Type} [LinearOrderedField K] {n L : Nat}

/-- The sampling loop, for an arbitrary map `g` from column indices to images: the mean
accumulates the weighted images and the sigma matrix is filled column by column. -/
theorem sample_foldl (g : Fin L → Fin n → K) (wts : Fin L → K) (l : List (Fin L))
    (acc : SigmaPointSet K n L) :
    (l.foldl
        (fun (acc : SigmaPointSet K n L) (i : Fin L) =>
          let sigmas := acc.sigmaPoints.updateColumn i (g i)
          (⟨acc.vector + wts i • (fun r => sigmas r i), sigmas⟩ : SigmaPointSet K n L))
        acc).vector = acc.vector + (l.map (fun i => wts i • g i)).sum
      ∧ (l.foldl
        (fun (acc : SigmaPointSet K n L) (i : Fin L) =>
          let sigmas := acc.sigmaPoints.updateColumn i (g i)
          (⟨acc.vector + wts i • (fun r => sigmas r i), sigmas⟩ : SigmaPointSet K n L))
        acc).sigmaPoints = l.foldl (fun mat j => mat.updateColumn j (g j)) acc.sigmaPoints := by
  induction l generalizing acc with
  | nil => simp
  | cons a l ih =>
    rw [List.foldl_cons, List.foldl_cons]
    obtain ⟨h1, h2⟩ := ih
      (⟨acc.vector + wts a • (fun r => (acc.sigmaPoints.updateColumn a (g a)) r a),
        acc.sigmaPoints.updateColumn a (g a)⟩ : SigmaPointSet K n L)
    refine ⟨?_, h2⟩
    rw [h1]
    simp only [List.map_cons, List.sum_cons, Matrix.updateColumn_self]
    rw [add_assoc]

theorem fillMatrixWithVector_apply (vec : Fin n → K) (r : Fin n) (i : Fin L) :
    fillMatrixWithVector vec L r i = vec r := by
  unfold fillMatrixWithVector
  rw [foldl_updateColumn_apply (fun _ => vec)]
  simp [List.mem_finRange]

theorem computeDeviations_apply (sample : SigmaPointSet K n L) (r : Fin n) (i : Fin L) :
    computeDeviations sample r i = sample.sigmaPoints r i - sample.vector r := by
  simp [computeDeviations, fillMatrixWithVector_apply]

theorem sampleStateSpace_vector (processFunc : (Fin n → K) → K → (Fin n → K))
    (sigmaPts : Matrix (Fin n) (Fin L) K) (meanWts : Fin L → K) (dt : K) :
    (sampleStateSpace processFunc sigmaPts meanWts dt).vector
      = ∑ i, meanWts i • processFunc (fun r => sigmaPts r i) dt := by
  unfold sampleStateSpace
  rw [(sample_foldl (fun i => processFunc (fun r => sigmaPts r i) dt) meanWts _ _).1,
    Fin.sum_univ_def]
  simp

theorem sampleStateSpace_sigmaPoints (processFunc : (Fin n → K) → K → (Fin n → K))
    (sigmaPts : Matrix (Fin n) (Fin L) K) (meanWts : Fin L → K) (dt : K) (r : Fin n)
    (i : Fin L) :
    (sampleStateSpace processFunc sigmaPts meanWts dt).sigmaPoints r i
      = processFunc (fun r => sigmaPts r i) dt r := by
  unfold sampleStateSpace
  rw [(sample_foldl (fun i => processFunc (fun r => sigmaPts r i) dt) meanWts _ _).2,
    foldl_updateColumn_apply]
  simp [List.mem_finRange]

theorem sampleSensorSpace_vector {m : Nat} (observationFunc : (Fin n → K) → (Fin m → K))
    (sigmaPts : Matrix (Fin n) (Fin L) K) (meanWts : Fin L → K) :
    (sampleSensorSpace m observationFunc sigmaPts meanWts).vector
      = ∑ i, meanWts i • observationFunc (fun r => sigmaPts r i) := by
  unfold sampleSensorSpace
  rw [(sample_foldl (fun i => observationFunc (fun r => sigmaPts r i)) meanWts _ _).1,
    Fin.sum_univ_def]
  simp

theorem sampleSensorSpace_sigmaPoints {m : Nat} (observationFunc : (Fin n → K) → (Fin m → K))
    (sigmaPts : Matrix (Fin n) (Fin L) K) (meanWts : Fin L → K) (r : Fin m) (i : Fin L) :
    (sampleSensorSpace m observationFunc sigmaPts meanWts).sigmaPoints r i
      = observationFunc (fun r => sigmaPts r i) r := by
  unfold sampleSensorSpace
  rw [(sample_foldl (fun i => observationFunc (fun r => sigmaPts r i)) meanWts _ _).2,
    foldl_updateColumn_apply]
  simp [List.mem_finRange]

theorem unscentedStateTransform_sigmaPoints (processFunc : (Fin n → K) → K → (Fin n → K))
    (sigmaPts : Matrix (Fin n) (Fin L) K) (meanWts covWts : Fin L → K)
    (noiseCov : Matrix (Fin n) (Fin n) K) (dt : K) (r : Fin n) (i : Fin L) :
    (unscentedStateTransform processFunc sigmaPts meanWts covWts noiseCov dt).sigmaPoints r i
      = processFunc (fun r => sigmaPts r i) dt r := by
  simp [unscentedStateTransform, sampleStateSpace_sigmaPoints]

theorem unscentedStateTransform_vector (processFunc : (Fin n → K) → K → (Fin n → K))
    (sigmaPts : Matrix (Fin n) (Fin L) K) (meanWts covWts : Fin L → K)
    (noiseCov : Matrix (Fin n) (Fin n) K) (dt : K) :
    (unscentedStateTransform processFunc sigmaPts meanWts covWts noiseCov dt).vector
      = ∑ i, meanWts i • processFunc (fun r => sigmaPts r i) dt := by
  simp [unscentedStateTransform, sampleStateSpace_vector]

theorem unscentedStateTransform_deviations (processFunc : (Fin n → K) → K → (Fin n → K))
    (sigmaPts : Matrix (Fin n) (Fin L) K) (meanWts covWts : Fin L → K)
    (noiseCov : Matrix (Fin n) (Fin n) K) (dt : K) (r : Fin n) (i : Fin L) :
    (unscentedStateTransform processFunc sigmaPts meanWts covWts noiseCov dt).deviations r i
      = (unscentedStateTransform processFunc sigmaPts meanWts covWts noiseCov dt).sigmaPoints r i
        - (unscentedStateTransform processFunc sigmaPts meanWts covWts noiseCov dt).vector r := by
  simp [unscentedStateTransform, computeDeviations_apply]

theorem unscentedStateTransform_covariance (processFunc : (Fin n → K) → K → (Fin n → K))
    (sigmaPts : Matrix (Fin n) (Fin L) K) (meanWts covWts : Fin L → K)
    (noiseCov : Matrix (Fin n) (Fin n) K) (dt : K) :
    (unscentedStateTransform processFunc sigmaPts meanWts covWts noiseCov dt).covariance
      = (unscentedStateTransform processFunc sigmaPts meanWts covWts noiseCov dt).deviations
          * Matrix.diagonal covWts
          * (unscentedStateTransform processFunc sigmaPts meanWts covWts noiseCov
              dt).deviations.transpose
        + noiseCov := by
  simp [unscentedStateTransform, computeCovariance]

theorem inverse_eq_inv {m : Nat} (A : Matrix (Fin m) (Fin m) K) : Eigen.inverse A = A⁻¹ := by
  unfold Eigen.inverse
  rw [Matrix.inv_def, Ring.inverse_eq_inv']

theorem unscentedSensorTransform_vector {m : Nat} (h : (Fin n → K) → (Fin m → K))
    (sigmaPts : Matrix (Fin n) (Fin L) K) (wm wc : Fin L → K) (R : Matrix (Fin m) (Fin m) K) :
    (unscentedSensorTransform m h sigmaPts wm wc R).vector = Spec.sensorMean h sigmaPts wm := by
  simp [unscentedSensorTransform, sampleSensorSpace_vector, Spec.sensorMean]

theorem unscentedSensorTransform_deviations {m : Nat} (h : (Fin n → K) → (Fin m → K))
    (sigmaPts : Matrix (Fin n) (Fin L) K) (wm wc : Fin L → K) (R : Matrix (Fin m) (Fin m) K) :
    (unscentedSensorTransform m h sigmaPts wm wc R).deviations
      = Spec.sensorDeviations h sigmaPts wm := by
  ext j i
  simp [unscentedSensorTransform, computeDeviations_apply, sampleSensorSpace_vector,
    sampleSensorSpace_sigmaPoints, Spec.sensorDeviations, Spec.sensorMean]

theorem unscentedSensorTransform_covariance {m : Nat} (h : (Fin n → K) → (Fin m → K))
    (sigmaPts : Matrix (Fin n) (Fin L) K) (wm wc : Fin L → K) (R : Matrix (Fin m) (Fin m) K) :
    (unscentedSensorTransform m h sigmaPts wm wc R).covariance
      = Spec.innovationCovariance h sigmaPts wm wc R := by
  have hd := unscentedSensorTransform_deviations h sigmaPts wm wc R
  simp only [unscentedSensorTransform] at hd
  simp only [unscentedSensorTransform, computeCovariance, Spec.innovationCovariance, hd]

theorem correctState_state {m : Nat} (h : (Fin n → K) → (Fin m → K)) (wm wc : Fin L → K)
    (stateTf : Transform K n L) (z : Fin m → K) (R : Matrix (Fin m) (Fin m) K) :
    (correctState h wm wc stateTf z R).state
      = stateTf.vector
        + (Spec.crossCovariance h stateTf.deviations stateTf.sigmaPoints wm wc
            * (Spec.innovationCovariance h stateTf.sigmaPoints wm wc R)⁻¹).mulVec
          (z - Spec.sensorMean h stateTf.sigmaPoints wm) := by
  simp only [correctState, unscentedSensorTransform_vector, unscentedSensorTransform_deviations,
    unscentedSensorTransform_covariance, inverse_eq_inv, Spec.crossCovariance]

theorem correctState_covariance {m : Nat} (h : (Fin n → K) → (Fin m → K)) (wm wc : Fin L → K)
    (stateTf : Transform K n L) (z : Fin m → K) (R : Matrix (Fin m) (Fin m) K) :
    (correctState h wm wc stateTf z R).covariance
      = stateTf.covariance
        - Spec.crossCovariance h stateTf.deviations stateTf.sigmaPoints wm wc
            * (Spec.innovationCovariance h stateTf.sigmaPoints wm wc R)⁻¹
            * (Spec.crossCovariance h stateTf.deviations stateTf.sigmaPoints wm wc).transpose := by
  simp only [correctState, unscentedSensorTransform_vector, unscentedSensorTransform_deviations,
    unscentedSensorTransform_covariance, inverse_eq_inv, Spec.crossCovariance]

end EngineLemmas

section Correction

open Eigen UnscentedKf QuadUkf

variable {K : Type} [LinearOrderedField K] {n m L : Nat}

/-- Perfect measurement, for any state transform whose mean and deviations are
consistent with its sigma points. -/
theorem correctState_perfect_of_consistent (hmn : m ≤ n) (wm wc : Fin L → K)
    (stateTf : Transform K n L) (z : Fin m → K)
    (hv : stateTf.vector = ∑ i, wm i • fun r => stateTf.sigmaPoints r i)
    (hd : ∀ r i, stateTf.deviations r i = stateTf.sigmaPoints r i - stateTf.vector r)
    (hinv : (unscentedSensorTransform m (observationFunc m hmn) stateTf.sigmaPoints
        wm wc 0).covariance.det ≠ 0) (j : Fin m) :
    (correctState (observationFunc m hmn) wm wc stateTf z 0).state (Fin.castLE hmn j) = z j := by
  rw [unscentedSensorTransform_covariance] at hinv
  have hz : Spec.sensorMean (observationFunc m hmn) stateTf.sigmaPoints wm
      = fun j => stateTf.vector (Fin.castLE hmn j) := by
    funext j
    rw [hv]
    simp [Spec.sensorMean, observationFunc, Finset.sum_apply]
  have hDz : Spec.sensorDeviations (observationFunc m hmn) stateTf.sigmaPoints wm
      = stateTf.deviations.submatrix (Fin.castLE hmn) id := by
    ext a i
    simp [Spec.sensorDeviations, hz, hd, observationFunc]
  have hPzz : Spec.innovationCovariance (observationFunc m hmn) stateTf.sigmaPoints wm wc 0
      = (Spec.crossCovariance (observationFunc m hmn) stateTf.deviations stateTf.sigmaPoints
          wm wc).submatrix (Fin.castLE hmn) id := by
    ext a b
    simp [Spec.innovationCovariance, Spec.crossCovariance, hDz, Matrix.mul_apply]
  have hsel : ∀ (A : Matrix (Fin n) (Fin m) K) (B : Matrix (Fin m) (Fin m) K) (v : Fin m → K),
      (A * B).mulVec v (Fin.castLE hmn j)
        = ((A.submatrix (Fin.castLE hmn) id) * B).mulVec v j := by
    intro A B v
    simp [Matrix.mulVec, Matrix.dotProduct, Matrix.mul_apply]
  rw [correctState_state, Pi.add_apply, hsel, ← hPzz,
    Matrix.mul_nonsing_inv _ (isUnit_iff_ne_zero.2 hinv), Matrix.one_mulVec, hz]
  simp

/-- C6: `unscentedStateTransform` returns the images `Yᵢ = processFunc(sigmaᵢ, dt)` of
the sigma points, their weighted mean `Σ wmᵢ·Yᵢ`, the deviations `Yᵢ − mean` columnwise,
and the covariance `D·diag(wc)·Dᵀ + Q`. -/
theorem unscentedStateTransform_spec (processFunc : (Fin n → K) → K → (Fin n → K))
    (sigmaPts : Matrix (Fin n) (Fin L) K) (meanWts covWts : Fin L → K)
    (noiseCov : Matrix (Fin n) (Fin n) K) (dt : K) :
    (∀ r i, (unscentedStateTransform processFunc sigmaPts meanWts covWts noiseCov dt).sigmaPoints
        r i = processFunc (fun r => sigmaPts r i) dt r)
      ∧ (unscentedStateTransform processFunc sigmaPts meanWts covWts noiseCov dt).vector
          = ∑ i, meanWts i • processFunc (fun r => sigmaPts r i) dt
      ∧ (∀ r i, (unscentedStateTransform processFunc sigmaPts meanWts covWts noiseCov dt).deviations
          r i = processFunc (fun r => sigmaPts r i) dt r
            - (∑ j, meanWts j • processFunc (fun r => sigmaPts r j) dt) r)
      ∧ (unscentedStateTransform processFunc sigmaPts meanWts covWts noiseCov dt).covariance
          = (unscentedStateTransform processFunc sigmaPts meanWts covWts noiseCov dt).deviations
              * Matrix.diagonal covWts
              * (unscentedStateTransform processFunc sigmaPts meanWts covWts noiseCov
                  dt).deviations.transpose
            + noiseCov := by
  refine ⟨?_, ?_, ?_, ?_⟩
  · intro r i
    exact unscentedStateTransform_sigmaPoints processFunc sigmaPts meanWts covWts noiseCov dt r i
  · exact unscentedStateTransform_vector processFunc sigmaPts meanWts covWts noiseCov dt
  · intro r i
    rw [unscentedStateTransform_deviations, unscentedStateTransform_sigmaPoints,
      unscentedStateTransform_vector]
  · exact unscentedStateTransform_covariance processFunc sigmaPts meanWts covWts noiseCov dt

/-- C4: `correctState` computes the standard UKF correction. With `ẑ` the mean and `Pzz`
the covariance of the sensor transform (the weighted mean of the observed sigma points and
`Dz·diag(wc)·Dzᵀ + R`), `Pxz = Dx·diag(wc)·Dzᵀ` and `K = Pxz·Pzz⁻¹`, it returns the state
`x + K·(z − ẑ)` and the covariance `P − K·Pxzᵀ`. -/
theorem correctState_standard_update (h : (Fin n → K) → (Fin m → K)) (wm wc : Fin L → K)
    (stateTf : Transform K n L) (z : Fin m → K) (R : Matrix (Fin m) (Fin m) K) :
    (unscentedSensorTransform m h stateTf.sigmaPoints wm wc R).vector
        = Spec.sensorMean h stateTf.sigmaPoints wm
      ∧ (unscentedSensorTransform m h stateTf.sigmaPoints wm wc R).covariance
        = Spec.innovationCovariance h stateTf.sigmaPoints wm wc R
      ∧ (correctState h wm wc stateTf z R).state
        = stateTf.vector
          + (Spec.crossCovariance h stateTf.deviations stateTf.sigmaPoints wm wc
              * (Spec.innovationCovariance h stateTf.sigmaPoints wm wc R)⁻¹).mulVec
            (z - Spec.sensorMean h stateTf.sigmaPoints wm)
      ∧ (correctState h wm wc stateTf z R).covariance
        = stateTf.covariance
          - Spec.crossCovariance h stateTf.deviations stateTf.sigmaPoints wm wc
              * (Spec.innovationCovariance h stateTf.sigmaPoints wm wc R)⁻¹
              * (Spec.crossCovariance h stateTf.deviations stateTf.sigmaPoints wm wc).transpose :=
  ⟨unscentedSensorTransform_vector h _ wm wc R, unscentedSensorTransform_covariance h _ wm wc R,
    correctState_state h wm wc stateTf z R, correctState_covariance h wm wc stateTf z R⟩

/-- C3: for a state transform produced by `predictState`, a measurement `z` and `R = 0`
with `Pzz` invertible, the first `m` entries of the corrected state equal `z` (for the
quadrotor `n = 16` and `m = 10`: position, quaternion and velocity). -/
theorem correctState_perfect_measurement (hmn : m ≤ n)
    (ldlt : Matrix (Fin n) (Fin n) K → Matrix (Fin n) (Fin n) K)
    (processFunc : (Fin n → K) → K → (Fin n → K)) (lambda : K)
    (wm wc : Fin (2 * n + 1) → K) (x : Fin n → K) (P Q : Matrix (Fin n) (Fin n) K) (dt : K)
    (z : Fin m → K)
    (hinv : (unscentedSensorTransform m (observationFunc m hmn)
        (predictState ldlt processFunc lambda wm wc x P Q dt).sigmaPoints
        wm wc 0).covariance.det ≠ 0) (j : Fin m) :
    (correctState (observationFunc m hmn) wm wc
        (predictState ldlt processFunc lambda wm wc x P Q dt) z 0).state (Fin.castLE hmn j)
      = z j := by
  apply correctState_perfect_of_consistent hmn wm wc _ z _ _ hinv
  · simp only [predictState]
    rw [unscentedStateTransform_vector]
    congr 1
    funext i
    congr 1
    funext r
    rw [unscentedStateTransform_sigmaPoints]
  · intro r i
    simp only [predictState]
    rw [unscentedStateTransform_deviations]

/-- Witness of C3 in dimension one: state `0` with covariance `1`, identity process,
`λ = 1`; the sigma points are `0, 2, -2`, `Pzz = 2`, and the measurement `5` is
reproduced. -/
theorem correctState_perfect_measurement_witness :
    (correctState (observationFunc 1 (le_refl 1)) (meanWeights 1 (1 : ℝ))
        (covarianceWeights 1 (1 : ℝ) 1 2)
        (predictState (fun P => P) (fun x _ => x) 1 (meanWeights 1 (1 : ℝ))
          (covarianceWeights 1 (1 : ℝ) 1 2) ![0] 1 0 0) ![5] 0).state
        (Fin.castLE (le_refl 1) 0) = (![5] : Fin 1 → ℝ) 0 :=
  correctState_perfect_measurement (le_refl 1) (fun P => P) (fun x _ => x) 1
    (meanWeights 1 (1 : ℝ)) (covarianceWeights 1 (1 : ℝ) 1 2) ![0] 1 0 0 ![5]
    (by
      rw [unscentedSensorTransform_covariance]
      simp [Spec.innovationCovariance, Spec.sensorDeviations, Spec.sensorMean, observationFunc,
        Matrix.det_unique, Matrix.mul_apply, predictState, unscentedStateTransform_sigmaPoints,
        computeSigmaPoints, commaInit, fillMatrixWithVector_apply, matrixL, Fin.sum_univ_succ,
        meanWeights, covarianceWeights, Matrix.diagonal]) 0

end Correction

section SigmaPoints

open Eigen UnscentedKf QuadUkf

/-- A sum over the `2n+1` columns splits into the central column, the `n` columns
`x + Aᵢ` and the `n` columns `x − Aᵢ`. -/
theorem sum_columns {M : Type} [AddCommMonoid M] (n : Nat) (f : Fin (2 * n + 1) → M) :
    ∑ j, f j = f 0 + ∑ i : Fin n, f (colPlus i) + ∑ i : Fin n, f (colMinus i) := by
  have key : ∀ F : ℕ → M, ∑ k in Finset.range (2 * n + 1), F k
      = F 0 + ∑ k in Finset.range n, F (k + 1) + ∑ k in Finset.range n, F (n + 1 + k) := by
    intro F
    rw [Finset.sum_range_succ', two_mul, Finset.sum_range_add, add_comm, add_assoc]
    congr 2
    apply Finset.sum_congr rfl
    intro k _
    congr 1
    omega
  have h := key (fun k => if hk : k < 2 * n + 1 then f ⟨k, hk⟩ else 0)
  rw [Finset.sum_range, Finset.sum_range, Finset.sum_range] at h
  simp only [Fin.is_lt, dite_true, Fin.eta] at h
  rw [h]
  congr 1
  · congr 1
    · simp
    · apply Finset.sum_congr rfl
      intro i _
      have hi : i.val + 1 < 2 * n + 1 := by omega
      simp [hi, colPlus]
  · apply Finset.sum_congr rfl
    intro i _
    have hi : n + 1 + i.val < 2 * n + 1 := by omega
    simp [hi, colMinus]

theorem commaInit_zero {K : Type} {n : Nat} (x : Fin n → K) (B C : Matrix (Fin n) (Fin n) K) (r : Fin n) :
    commaInit x B C r 0 = x r := by
  simp [commaInit]

theorem commaInit_colPlus {K : Type} {n : Nat} (x : Fin n → K) (B C : Matrix (Fin n) (Fin n) K) (r i : Fin n) :
    commaInit x B C r (colPlus i) = B r i := by
  have h1 : i.val + 1 ≤ n := i.isLt
  simp [commaInit, colPlus, h1]

theorem commaInit_colMinus {K : Type} {n : Nat} (x : Fin n → K) (B C : Matrix (Fin n) (Fin n) K) (r i : Fin n) :
    commaInit x B C r (colMinus i) = C r i := by
  have h1 : ¬ n + 1 + i.val ≤ n := by omega
  have h2 : n + 1 + i.val - 1 - n = i.val := by omega
  simp [commaInit, colMinus, h1, h2]

variable {K : Type} [LinearOrderedField K] {n : Nat}

theorem computeSigmaPoints_zero (ldlt : Matrix (Fin n) (Fin n) K → Matrix (Fin n) (Fin n) K)
    (x : Fin n → K) (P : Matrix (Fin n) (Fin n) K) (c : K) (r : Fin n) :
    computeSigmaPoints ldlt x P c r 0 = x r := by
  simp [computeSigmaPoints, commaInit_zero]

theorem computeSigmaPoints_colPlus (ldlt : Matrix (Fin n) (Fin n) K → Matrix (Fin n) (Fin n) K)
    (x : Fin n → K) (P : Matrix (Fin n) (Fin n) K) (c : K) (r i : Fin n) :
    computeSigmaPoints ldlt x P c r (colPlus i) = x r + c * matrixL (ldlt P) r i := by
  simp [computeSigmaPoints, commaInit_colPlus, fillMatrixWithVector_apply]

theorem computeSigmaPoints_colMinus (ldlt : Matrix (Fin n) (Fin n) K → Matrix (Fin n) (Fin n) K)
    (x : Fin n → K) (P : Matrix (Fin n) (Fin n) K) (c : K) (r i : Fin n) :
    computeSigmaPoints ldlt x P c r (colMinus i) = x r - c * matrixL (ldlt P) r i := by
  simp [computeSigmaPoints, commaInit_colMinus, fillMatrixWithVector_apply]

theorem meanWeights_zero (lambda : K) :
    meanWeights n lambda 0 = lambda / ((n : K) + lambda) := by
  simp [meanWeights]

theorem meanWeights_colPlus (lambda : K) (i : Fin n) :
    meanWeights n lambda (colPlus i) = 1 / (2 * ((n : K) + lambda)) := by
  simp [meanWeights, colPlus]

theorem meanWeights_colMinus (lambda : K) (i : Fin n) :
    meanWeights n lambda (colMinus i) = 1 / (2 * ((n : K) + lambda)) := by
  simp [meanWeights, colMinus]

/-- The weighted mean, with the mean weights of the specification, of one row of a
matrix whose columns are `x`, `x + Aᵢ` and `x − Aᵢ`. -/
theorem weighted_mean_symmetric_row (lambda : K) (hne : (n : K) + lambda ≠ 0) (x0 : K)
    (a : Fin n → K) (s : Fin (2 * n + 1) → K) (h0 : s 0 = x0)
    (hp : ∀ i, s (colPlus i) = x0 + a i) (hm : ∀ i, s (colMinus i) = x0 - a i) :
    ∑ j, meanWeights n lambda j * s j = x0 := by
  rw [sum_columns]
  simp only [meanWeights_zero, meanWeights_colPlus, meanWeights_colMinus, h0, hp, hm]
  rw [add_assoc, ← Finset.sum_add_distrib]
  have : ∀ i : Fin n, 1 / (2 * ((n : K) + lambda)) * (x0 + a i)
      + 1 / (2 * ((n : K) + lambda)) * (x0 - a i) = x0 / ((n : K) + lambda) := by
    intro i
    field_simp
    ring
  simp only [this, Finset.sum_const, Finset.card_univ, Fintype.card_fin, nsmul_eq_mul]
  field_simp
  ring

/-- C8: with the mean weights `w0 = λ/(n+λ)` and `wᵢ = 1/(2(n+λ))`, `n+λ ≠ 0`, the
weighted mean of the columns `[x, x+Aᵢ, x−Aᵢ]` equals `x`: for the comma-initialised
matrix of any `A`, and so for the matrix built by `computeSigmaPoints`. -/
theorem computeSigmaPoints_weighted_mean (lambda : K) (hne : (n : K) + lambda ≠ 0)
    (x : Fin n → K) :
    (∀ A : Matrix (Fin n) (Fin n) K,
        ∑ j, meanWeights n lambda j
            • (fun r => commaInit x (fillMatrixWithVector x n + A)
                (fillMatrixWithVector x n - A) r j) = x)
      ∧ ∀ (ldlt : Matrix (Fin n) (Fin n) K → Matrix (Fin n) (Fin n) K)
          (P : Matrix (Fin n) (Fin n) K) (scalingCoeff : K),
        ∑ j, meanWeights n lambda j • (fun r => computeSigmaPoints ldlt x P scalingCoeff r j)
          = x := by
  have hA : ∀ A : Matrix (Fin n) (Fin n) K,
      ∑ j, meanWeights n lambda j
          • (fun r => commaInit x (fillMatrixWithVector x n + A)
              (fillMatrixWithVector x n - A) r j) = x := by
    intro A
    funext r
    rw [Finset.sum_apply]
    simp only [Pi.smul_apply, smul_eq_mul]
    apply weighted_mean_symmetric_row lambda hne (x r) (fun i => A r i)
    · exact commaInit_zero _ _ _ _
    · intro i
      simp [commaInit_colPlus, fillMatrixWithVector_apply]
    · intro i
      simp [commaInit_colMinus, fillMatrixWithVector_apply]
  refine ⟨hA, ?_⟩
  intro ldlt P c
  exact hA (c • matrixL (ldlt P))

/-- Witness of C8 in dimension one: `x = 3`, `A = 5`, `λ = 1`. -/
theorem computeSigmaPoints_weighted_mean_witness :
    (∀ A : Matrix (Fin 1) (Fin 1) ℝ,
        ∑ j, meanWeights 1 (1 : ℝ) j
            • (fun r => commaInit (![3] : Fin 1 → ℝ) (fillMatrixWithVector ![3] 1 + A)
                (fillMatrixWithVector ![3] 1 - A) r j) = ![3])
      ∧ ∀ (ldlt : Matrix (Fin 1) (Fin 1) ℝ → Matrix (Fin 1) (Fin 1) ℝ)
          (P : Matrix (Fin 1) (Fin 1) ℝ) (scalingCoeff : ℝ),
        ∑ j, meanWeights 1 (1 : ℝ) j
            • (fun r => computeSigmaPoints ldlt (![3] : Fin 1 → ℝ) P scalingCoeff r j)
          = ![3] :=
  computeSigmaPoints_weighted_mean (1 : ℝ) (by norm_num) ![3]

end SigmaPoints

section ProcessModel

open Eigen UnscentedKf QuadUkf

variable {K : Type} [LinearOrderedField K]

theorem processFunc_acceleration (sqrt : K → K) (lastBelief : QuadBelief K) (x : Fin 16 → K)
    (dt : K) :
    processFunc sqrt lastBelief x dt 13
        = (Quaterniond.normalized sqrt ⟨![x 3, x 4, x 5, x 6]⟩).toRotationMatrix.mulVec
            ![x 13, x 14, x 15] 0
      ∧ processFunc sqrt lastBelief x dt 14
        = (Quaterniond.normalized sqrt ⟨![x 3, x 4, x 5, x 6]⟩).toRotationMatrix.mulVec
            ![x 13, x 14, x 15] 1
      ∧ processFunc sqrt lastBelief x dt 15
        = (Quaterniond.normalized sqrt ⟨![x 3, x 4, x 5, x 6]⟩).toRotationMatrix.mulVec
            ![x 13, x 14, x 15] 2 :=
  ⟨rfl, rfl, rfl⟩

theorem processFunc_velocity (sqrt : K → K) (lastBelief : QuadBelief K) (x : Fin 16 → K)
    (dt : K) :
    processFunc sqrt lastBelief x dt 7
        = x 7 + 1 / 2 * (lastBelief.state.acceleration 0 + processFunc sqrt lastBelief x dt 13) * dt
      ∧ processFunc sqrt lastBelief x dt 8
        = x 8 + 1 / 2 * (lastBelief.state.acceleration 1 + processFunc sqrt lastBelief x dt 14) * dt
      ∧ processFunc sqrt lastBelief x dt 9
        = x 9 + 1 / 2 * (lastBelief.state.acceleration 2 + processFunc sqrt lastBelief x dt 15) * dt :=
  ⟨rfl, rfl, rfl⟩

theorem processFunc_position (sqrt : K → K) (lastBelief : QuadBelief K) (x : Fin 16 → K)
    (dt : K) :
    processFunc sqrt lastBelief x dt 0
        = x 0 + ((processFunc sqrt lastBelief x dt 7 + x 7) / 2) * dt
      ∧ processFunc sqrt lastBelief x dt 1
        = x 1 + ((processFunc sqrt lastBelief x dt 8 + x 8) / 2) * dt
      ∧ processFunc sqrt lastBelief x dt 2
        = x 2 + ((processFunc sqrt lastBelief x dt 9 + x 9) / 2) * dt :=
  ⟨rfl, rfl, rfl⟩

theorem processFunc_angular_velocity (sqrt : K → K) (lastBelief : QuadBelief K)
    (x : Fin 16 → K) (dt : K) :
    processFunc sqrt lastBelief x dt 10 = x 10
      ∧ processFunc sqrt lastBelief x dt 11 = x 11
      ∧ processFunc sqrt lastBelief x dt 12 = x 12 :=
  ⟨rfl, rfl, rfl⟩

/-- C10: `processFunc` integrates trapezoidally. With `q̂` the normalised prior
quaternion (entries 3..6), `a' = R(q̂)·a` the rotated prior acceleration (entries 13..15)
and `a_prev` the acceleration of the stored last belief, the output acceleration is `a'`,
the output velocity (entries 7..9) is `v + ½(a_prev + a')·dt` and the output position
(entries 0..2) is `p + ½(v + v')·dt`. -/
theorem processFunc_trapezoidal (sqrt : K → K) (lastBelief : QuadBelief K) (x : Fin 16 → K)
    (dt : K) :
    (![processFunc sqrt lastBelief x dt 13, processFunc sqrt lastBelief x dt 14,
        processFunc sqrt lastBelief x dt 15]
      = (Quaterniond.normalized sqrt ⟨![x 3, x 4, x 5, x 6]⟩).toRotationMatrix.mulVec
          ![x 13, x 14, x 15])
    ∧ (![processFunc sqrt lastBelief x dt 7, processFunc sqrt lastBelief x dt 8,
        processFunc sqrt lastBelief x dt 9]
      = fun i => ![x 7, x 8, x 9] i
          + 1 / 2 * (lastBelief.state.acceleration i
              + ![processFunc sqrt lastBelief x dt 13, processFunc sqrt lastBelief x dt 14,
                  processFunc sqrt lastBelief x dt 15] i) * dt)
    ∧ (![processFunc sqrt lastBelief x dt 0, processFunc sqrt lastBelief x dt 1,
        processFunc sqrt lastBelief x dt 2]
      = fun i => ![x 0, x 1, x 2] i
          + 1 / 2 * (![x 7, x 8, x 9] i
              + ![processFunc sqrt lastBelief x dt 7, processFunc sqrt lastBelief x dt 8,
                  processFunc sqrt lastBelief x dt 9] i) * dt) := by
  obtain ⟨a0, a1, a2⟩ := processFunc_acceleration sqrt lastBelief x dt
  obtain ⟨v0, v1, v2⟩ := processFunc_velocity sqrt lastBelief x dt
  obtain ⟨p0, p1, p2⟩ := processFunc_position sqrt lastBelief x dt
  refine ⟨?_, ?_, ?_⟩
  · funext i
    fin_cases i
    · exact a0
    · exact a1
    · exact a2
  · funext i
    fin_cases i
    · exact v0
    · exact v1
    · exact v2
  · funext i
    fin_cases i
    · simp only [Fin.zero_eta, Matrix.cons_val_zero]
      rw [p0]
      ring
    · simp only [Fin.mk_one, Matrix.cons_val_one, Matrix.head_cons]
      rw [p1]
      ring
    · show processFunc sqrt lastBelief x dt 2
        = x 2 + 1 / 2 * (x 9 + processFunc sqrt lastBelief x dt 9) * dt
      rw [p2]
      ring

end ProcessModel

section Prediction

open Eigen UnscentedKf QuadUkf

variable {K : Type} [LinearOrderedField K] {n : Nat}

theorem matrixL_diag (S : Matrix (Fin n) (Fin n) K) (i : Fin n) : matrixL S i i = 1 := by
  simp [matrixL]

/-- The mean of a row on which the process function is the identity. -/
theorem predictState_vector_passthrough
    (ldlt : Matrix (Fin n) (Fin n) K → Matrix (Fin n) (Fin n) K)
    (f : (Fin n → K) → K → (Fin n → K)) (lambda : K) (hne : (n : K) + lambda ≠ 0)
    (wc : Fin (2 * n + 1) → K) (x : Fin n → K) (P Q : Matrix (Fin n) (Fin n) K) (dt : K)
    (r : Fin n) (hr : ∀ v, f v dt r = v r) :
    (predictState ldlt f lambda (meanWeights n lambda) wc x P Q dt).vector r = x r := by
  simp only [predictState]
  rw [unscentedStateTransform_vector, Finset.sum_apply]
  simp only [Pi.smul_apply, smul_eq_mul, hr]
  apply weighted_mean_symmetric_row lambda hne (x r)
    (fun i => ((n : K) + lambda) * matrixL (ldlt P) r i)
  · exact computeSigmaPoints_zero _ _ _ _ _
  · intro i
    exact computeSigmaPoints_colPlus _ _ _ _ _ _
  · intro i
    exact computeSigmaPoints_colMinus _ _ _ _ _ _

/-- The weighted mean of a row that is zero in the central column and antisymmetric in
the two other blocks of columns is zero, whatever the value of `n + λ`. -/
theorem weighted_mean_zero_row (lambda : K) (a : Fin n → K) (s : Fin (2 * n + 1) → K)
    (h0 : s 0 = 0) (hp : ∀ i, s (colPlus i) = a i) (hm : ∀ i, s (colMinus i) = -a i) :
    ∑ j, meanWeights n lambda j * s j = 0 := by
  rw [sum_columns]
  simp only [meanWeights_zero, meanWeights_colPlus, meanWeights_colMinus, h0, hp, hm]
  rw [add_assoc, ← Finset.sum_add_distrib]
  simp

theorem covarianceWeights_colPlus (lambda alpha beta : K) (i : Fin n) :
    covarianceWeights n lambda alpha beta (colPlus i) = 1 / (2 * ((n : K) + lambda)) := by
  simp [covarianceWeights, colPlus]

theorem covarianceWeights_colMinus (lambda alpha beta : K) (i : Fin n) :
    covarianceWeights n lambda alpha beta (colMinus i) = 1 / (2 * ((n : K) + lambda)) := by
  simp [covarianceWeights, colMinus]

theorem mul_diagonal_mul_transpose_apply {L : Nat} (D : Matrix (Fin n) (Fin L) K)
    (w : Fin L → K) (r s : Fin n) :
    (D * Matrix.diagonal w * D.transpose) r s = ∑ j, D r j * w j * D s j := by
  rw [Matrix.mul_apply]
  simp only [Matrix.mul_diagonal, Matrix.transpose_apply]

/-- The diagonal covariance entry of a row on which the process function is the identity
and where the state is zero: `n + λ` (written `2·wᵢ·(n+λ)²`) times the squared norm of
the row of the unit lower triangular factor, whatever `P` is. -/
theorem predictState_covariance_passthrough
    (ldlt : Matrix (Fin n) (Fin n) K → Matrix (Fin n) (Fin n) K)
    (f : (Fin n → K) → K → (Fin n → K)) (lambda alpha beta : K)
    (x : Fin n → K) (P : Matrix (Fin n) (Fin n) K) (dt : K)
    (r : Fin n) (hr : ∀ v, f v dt r = v r) (hx : x r = 0) :
    (predictState ldlt f lambda (meanWeights n lambda) (covarianceWeights n lambda alpha beta)
        x P 0 dt).covariance r r
      = 2 * (1 / (2 * ((n : K) + lambda)) * ((n : K) + lambda) ^ 2)
          * ∑ i, (matrixL (ldlt P) r i) ^ 2 := by
  have hmean : (unscentedStateTransform f (computeSigmaPoints ldlt x P ((n : K) + lambda))
      (meanWeights n lambda) (covarianceWeights n lambda alpha beta) 0 dt).vector r = 0 := by
    rw [unscentedStateTransform_vector, Finset.sum_apply]
    simp only [Pi.smul_apply, smul_eq_mul, hr]
    apply weighted_mean_zero_row lambda (fun i => ((n : K) + lambda) * matrixL (ldlt P) r i)
    · rw [computeSigmaPoints_zero, hx]
    · intro i
      rw [computeSigmaPoints_colPlus, hx, zero_add]
    · intro i
      rw [computeSigmaPoints_colMinus, hx, zero_sub]
  have hdev : ∀ j, (unscentedStateTransform f (computeSigmaPoints ldlt x P ((n : K) + lambda))
      (meanWeights n lambda) (covarianceWeights n lambda alpha beta) 0 dt).deviations r j
        = computeSigmaPoints ldlt x P ((n : K) + lambda) r j := by
    intro j
    rw [unscentedStateTransform_deviations, hmean, unscentedStateTransform_sigmaPoints, hr,
      sub_zero]
  simp only [predictState]
  rw [unscentedStateTransform_covariance]
  rw [Matrix.add_apply, mul_diagonal_mul_transpose_apply, Matrix.zero_apply, add_zero]
  simp only [hdev]
  rw [sum_columns]
  simp only [computeSigmaPoints_zero, computeSigmaPoints_colPlus, computeSigmaPoints_colMinus,
    covarianceWeights_colPlus, covarianceWeights_colMinus, hx]
  rw [add_assoc, ← Finset.sum_add_distrib, Finset.mul_sum]
  simp only [zero_mul, mul_zero, zero_add, zero_sub]
  apply Finset.sum_congr rfl
  intro i _
  ring

theorem matrixL_row_zero_sq_sum {k : Nat} (S : Matrix (Fin (k + 1)) (Fin (k + 1)) K) :
    ∑ i, (matrixL S 0 i) ^ 2 = 1 := by
  rw [Finset.sum_eq_single 0]
  · simp [matrixL]
  · intro i _ hi
    have h1 : ¬ (0 : Fin (k + 1)) = i := fun h => hi h.symm
    have h2 : ¬ i < 0 := by simp
    simp [matrixL, h1, h2]
  · intro h
    exact absurd (Finset.mem_univ _) h

theorem matrixL_row_sq_sum_ge (S : Matrix (Fin n) (Fin n) K) (r : Fin n) :
    1 ≤ ∑ i, (matrixL S r i) ^ 2 := by
  have h := Finset.single_le_sum (f := fun i => (matrixL S r i) ^ 2)
    (fun i _ => sq_nonneg _) (Finset.mem_univ r)
  simpa [matrixL_diag] using h

/-- At `dt = 0` the process function passes position, velocity and angular velocity
through unchanged. -/
theorem processFunc_zero_dt (sqrt : K → K) (lastBelief : QuadBelief K) (v : Fin 16 → K)
    (r : Fin 16) (hr : r.val ≤ 2 ∨ (7 ≤ r.val ∧ r.val ≤ 12)) :
    processFunc sqrt lastBelief v 0 r = v r := by
  obtain ⟨v0, v1, v2⟩ := processFunc_velocity sqrt lastBelief v 0
  obtain ⟨p0, p1, p2⟩ := processFunc_position sqrt lastBelief v 0
  obtain ⟨w0, w1, w2⟩ := processFunc_angular_velocity sqrt lastBelief v 0
  have h0 : processFunc sqrt lastBelief v 0 0 = v 0 := by rw [p0]; ring
  have h1 : processFunc sqrt lastBelief v 0 1 = v 1 := by rw [p1]; ring
  have h2 : processFunc sqrt lastBelief v 0 2 = v 2 := by rw [p2]; ring
  have h7 : processFunc sqrt lastBelief v 0 7 = v 7 := by rw [v0]; ring
  have h8 : processFunc sqrt lastBelief v 0 8 = v 8 := by rw [v1]; ring
  have h9 : processFunc sqrt lastBelief v 0 9 = v 9 := by rw [v2]; ring
  fin_cases r
  · exact h0
  · exact h1
  · exact h2
  · exact absurd hr (by decide)
  · exact absurd hr (by decide)
  · exact absurd hr (by decide)
  · exact absurd hr (by decide)
  · exact h7
  · exact h8
  · exact h9
  · exact w0
  · exact w1
  · exact w2
  · exact absurd hr (by decide)
  · exact absurd hr (by decide)
  · exact absurd hr (by decide)

/-- The process function is not the identity at `dt = 0`: for the orientation
`(0,0,1,0)` (half a turn about z) the acceleration `(1,0,0)` comes out as `(-1,0,0)`. -/
theorem processFunc_zero_dt_rotates_acceleration (lastBelief : QuadBelief ℝ) :
    processFunc Real.sqrt lastBelief ![0, 0, 0, 0, 0, 1, 0, 0, 0, 0, 0, 0, 0, 1, 0, 0] 0 13
      = -1 := by
  rw [(processFunc_acceleration Real.sqrt lastBelief _ 0).1]
  have hq : Quaterniond.normalized Real.sqrt
      (⟨![(0 : ℝ), 0, 1, 0]⟩ : Quaterniond ℝ) = ⟨![0, 0, 1, 0]⟩ := by
    unfold Quaterniond.normalized
    rw [normalized_of_norm_one]
    simp [Eigen.norm, squaredNorm, Fin.sum_univ_four]
  have e3 : (![0, 0, 0, 0, 0, 1, 0, 0, 0, 0, 0, 0, 0, 1, 0, 0] : Fin 16 → ℝ) 3 = 0 := rfl
  have e4 : (![0, 0, 0, 0, 0, 1, 0, 0, 0, 0, 0, 0, 0, 1, 0, 0] : Fin 16 → ℝ) 4 = 0 := rfl
  have e5 : (![0, 0, 0, 0, 0, 1, 0, 0, 0, 0, 0, 0, 0, 1, 0, 0] : Fin 16 → ℝ) 5 = 1 := rfl
  have e6 : (![0, 0, 0, 0, 0, 1, 0, 0, 0, 0, 0, 0, 0, 1, 0, 0] : Fin 16 → ℝ) 6 = 0 := rfl
  have e13 : (![0, 0, 0, 0, 0, 1, 0, 0, 0, 0, 0, 0, 0, 1, 0, 0] : Fin 16 → ℝ) 13 = 1 := rfl
  have e14 : (![0, 0, 0, 0, 0, 1, 0, 0, 0, 0, 0, 0, 0, 1, 0, 0] : Fin 16 → ℝ) 14 = 0 := rfl
  have e15 : (![0, 0, 0, 0, 0, 1, 0, 0, 0, 0, 0, 0, 0, 1, 0, 0] : Fin 16 → ℝ) 15 = 0 := rfl
  rw [e3, e4, e5, e6, e13, e14, e15, hq]
  simp [Quaterniond.toRotationMatrix, Quaterniond.x, Quaterniond.y, Quaterniond.z,
    Quaterniond.w, Matrix.mulVec, Matrix.dotProduct, Fin.sum_univ_three]
  norm_num

/-- Counterexample to C9 as stated: at the initial state with the covariance
`P = diag(2, 1, …, 1)`, `Q = 0` and `dt = 0`, the covariance returned by `predictState` is
not `P`, whatever the value of `λ`, `α`, `β`, the stored factorization and the last
belief: its entry (0,0) is `n + λ` and its entry (1,1) at least as large. -/
theorem predictState_identity_counterexample :
    ¬ ∃ (ldlt : Matrix (Fin 16) (Fin 16) ℝ → Matrix (Fin 16) (Fin 16) ℝ)
        (lambda alpha beta : ℝ) (lastBelief : QuadBelief ℝ),
      (predictState ldlt (processFunc Real.sqrt lastBelief) lambda (meanWeights 16 lambda)
          (covarianceWeights 16 lambda alpha beta) (quadStateToEigen initState)
          (Matrix.diagonal (fun i : Fin 16 => if i = 0 then 2 else 1)) 0 0).covariance
        = Matrix.diagonal (fun i : Fin 16 => if i = 0 then 2 else 1) := by
  rintro ⟨ldlt, lambda, alpha, beta, lastBelief, h⟩
  have h00 := congrFun (congrFun h 0) 0
  have h11 := congrFun (congrFun h 1) 1
  rw [predictState_covariance_passthrough ldlt _ lambda alpha beta _ _ 0 0
    (fun v => processFunc_zero_dt Real.sqrt lastBelief v 0 (by decide)) rfl,
    matrixL_row_zero_sq_sum] at h00
  rw [predictState_covariance_passthrough ldlt _ lambda alpha beta _ _ 0 1
    (fun v => processFunc_zero_dt Real.sqrt lastBelief v 1 (by decide)) rfl] at h11
  have hge := matrixL_row_sq_sum_ge
    (ldlt (Matrix.diagonal (fun i : Fin 16 => if i = 0 then 2 else 1))) 1
  simp only [Matrix.diagonal_apply_eq, if_true, mul_one] at h00
  have h11' : 2 * (1 / (2 * (((16 : ℕ) : ℝ) + lambda)) * (((16 : ℕ) : ℝ) + lambda) ^ 2)
      * ∑ i, (matrixL (ldlt (Matrix.diagonal (fun i : Fin 16 => if i = 0 then 2 else 1))) 1 i) ^ 2
      = 1 := by
    rw [h11]
    simp
  rw [h00] at h11'
  linarith

/-- C9 (amended): with `Q = 0`, `dt = 0` and the mean weights of the specification
(`n + λ ≠ 0`), the mean of the transform returned by `predictState` agrees with `x` in the
position, velocity and angular-velocity entries (indices 0..2 and 7..12). -/
theorem predictState_zero_dt_mean (sqrt : K → K)
    (ldlt : Matrix (Fin 16) (Fin 16) K → Matrix (Fin 16) (Fin 16) K) (lambda : K)
    (hne : ((16 : ℕ) : K) + lambda ≠ 0) (wc : Fin (2 * 16 + 1) → K)
    (lastBelief : QuadBelief K) (x : Fin 16 → K) (P : Matrix (Fin 16) (Fin 16) K)
    (r : Fin 16) (hr : r.val ≤ 2 ∨ (7 ≤ r.val ∧ r.val ≤ 12)) :
    (predictState ldlt (processFunc sqrt lastBelief) lambda (meanWeights 16 lambda) wc
        x P 0 0).vector r = x r :=
  predictState_vector_passthrough ldlt (processFunc sqrt lastBelief) lambda hne wc x P 0 0 r
    (fun v => processFunc_zero_dt sqrt lastBelief v r hr)

set_option maxRecDepth 4000 in
/-- Witness of C9 (amended): the initial belief of the constructor with `λ = 0`; the
height entry (index 2) of the mean is that of the state. -/
theorem predictState_zero_dt_mean_witness :
    (predictState (fun P => P)
        (processFunc Real.sqrt (⟨0, 0, initState, initCov⟩ : QuadBelief ℝ)) 0
        (meanWeights 16 (0 : ℝ)) (covarianceWeights 16 (0 : ℝ) 1 2)
        (quadStateToEigen initState) initCov 0 0).vector 2
      = (quadStateToEigen (initState : QuadState ℝ)) 2 :=
  predictState_zero_dt_mean Real.sqrt (fun P => P) (0 : ℝ)
    (by rw [add_zero]; exact Nat.cast_ne_zero.2 (by decide))
    (covarianceWeights 16 (0 : ℝ) 1 2) (⟨0, 0, initState, initCov⟩ : QuadBelief ℝ)
    (quadStateToEigen initState) initCov (2 : Fin 16) (Or.inl (le_refl 2))

/-- C7 (code defect): `predictState` passes `n + λ` as `scalingCoeff`, and
`computeSigmaPoints` multiplies the factor by it without taking a square root. At the
initial belief of the constructor (`P = 0.01·I`) the first entry of the column `x + A₀` is
`n + λ = 16 + λ`, where the claim has `√(16 + λ)`; the two differ unless `16 + λ` is 0 or 1. -/
theorem predictState_sigma_scaling
    (ldlt : Matrix (Fin 16) (Fin 16) ℝ → Matrix (Fin 16) (Fin 16) ℝ) (lambda : ℝ)
    (f : (Fin 16 → ℝ) → ℝ → (Fin 16 → ℝ)) (wm wc : Fin (2 * 16 + 1) → ℝ)
    (Q : Matrix (Fin 16) (Fin 16) ℝ) (dt : ℝ) :
    predictState ldlt f lambda wm wc (quadStateToEigen initState) initCov Q dt
        = unscentedStateTransform f
            (computeSigmaPoints ldlt (quadStateToEigen initState) initCov
              (((16 : ℕ) : ℝ) + lambda)) wm wc Q dt
      ∧ computeSigmaPoints ldlt (quadStateToEigen initState) initCov
          (((16 : ℕ) : ℝ) + lambda) 0 (colPlus 0) = 16 + lambda
      ∧ quadStateToEigen initState 0 + Real.sqrt (16 + lambda) * matrixL (ldlt initCov) 0 0
          = Real.sqrt (16 + lambda)
      ∧ (16 + lambda ≠ 0 → 16 + lambda ≠ 1 →
          computeSigmaPoints ldlt (quadStateToEigen initState) initCov
              (((16 : ℕ) : ℝ) + lambda) 0 (colPlus 0)
            ≠ quadStateToEigen initState 0
              + Real.sqrt (16 + lambda) * matrixL (ldlt initCov) 0 0) := by
  have hx : quadStateToEigen (initState : QuadState ℝ) 0 = 0 := rfl
  have e1 : computeSigmaPoints ldlt (quadStateToEigen initState) initCov
      (((16 : ℕ) : ℝ) + lambda) 0 (colPlus 0) = 16 + lambda := by
    rw [computeSigmaPoints_colPlus, matrixL_diag, hx]
    norm_num
  have e2 : quadStateToEigen initState 0 + Real.sqrt (16 + lambda) * matrixL (ldlt initCov) 0 0
      = Real.sqrt (16 + lambda) := by
    rw [matrixL_diag, hx]
    ring
  refine ⟨rfl, e1, e2, ?_⟩
  intro h0 h1
  rw [e1, e2]
  intro h
  have hnn : 0 ≤ 16 + lambda := by
    rw [h]
    exact Real.sqrt_nonneg _
  have hsq := Real.sq_sqrt hnn
  rw [← h] at hsq
  have : (16 + lambda) * ((16 + lambda) - 1) = 0 := by nlinarith
  rcases mul_eq_zero.1 this with h2 | h2
  · exact h0 h2
  · exact h1 (by linarith)

end Prediction

section Orientation

open Eigen UnscentedKf QuadUkf

variable {K : Type} [LinearOrderedField K]

theorem processFunc_quaternion (sqrt : K → K) (lastBelief : QuadBelief K) (x : Fin 16 → K)
    (dt : K) (i : Fin 4) :
    ![processFunc sqrt lastBelief x dt 3, processFunc sqrt lastBelief x dt 4,
        processFunc sqrt lastBelief x dt 5, processFunc sqrt lastBelief x dt 6] i
      = Eigen.normalized sqrt
          (fun i => Eigen.normalized sqrt ![x 3, x 4, x 5, x 6] i
            + (((1 / 2 : K) • generateBigOmegaMat ![x 10, x 11, x 12]).mulVec
                (Eigen.normalized sqrt ![x 3, x 4, x 5, x 6])) i * dt) i := by
  fin_cases i <;> rfl

theorem generateBigOmegaMat_eq (w : Fin 3 → K) :
    generateBigOmegaMat w
      = !![0, w 2, -w 1, w 0;
           -w 2, 0, w 0, w 1;
           w 1, -w 0, 0, w 2;
           -w 0, -w 1, -w 2, 0] := rfl

/-- The squared norm of the integrated quaternion `q + ½·Ω(ω)·q·dt`. -/
theorem squaredNorm_integrated (q : Fin 4 → K) (w : Fin 3 → K) (dt : K) :
    squaredNorm (fun i => q i + (((1 / 2 : K) • generateBigOmegaMat w).mulVec q) i * dt)
      = squaredNorm q * (1 + dt ^ 2 * (w 0 ^ 2 + w 1 ^ 2 + w 2 ^ 2) / 4) := by
  simp [squaredNorm, Fin.sum_univ_four, generateBigOmegaMat, Matrix.mulVec,
    Matrix.dotProduct, Matrix.vecHead, Matrix.vecTail]
  ring

/-- C11: `processFunc` integrates the orientation by first-order quaternion kinematics.
The output quaternion (entries 3..6, order x, y, z, w) is the normalisation of
`q̂ + ½·Ω(ω)·q̂·dt`, with `q̂` the normalised prior quaternion and `Ω(ω)` the matrix built
by `generateBigOmegaMat`; the angular velocity (entries 10..12) is passed through. -/
theorem processFunc_quaternion_kinematics (sqrt : K → K) (lastBelief : QuadBelief K)
    (x : Fin 16 → K) (dt : K) :
    ![processFunc sqrt lastBelief x dt 3, processFunc sqrt lastBelief x dt 4,
        processFunc sqrt lastBelief x dt 5, processFunc sqrt lastBelief x dt 6]
      = Eigen.normalized sqrt
          (fun i => Eigen.normalized sqrt ![x 3, x 4, x 5, x 6] i
            + 1 / 2 *
              ((!![0, x 12, -x 11, x 10;
                   -x 12, 0, x 10, x 11;
                   x 11, -x 10, 0, x 12;
                   -x 10, -x 11, -x 12, 0] : Matrix (Fin 4) (Fin 4) K).mulVec
                (Eigen.normalized sqrt ![x 3, x 4, x 5, x 6])) i * dt)
    ∧ generateBigOmegaMat ![x 10, x 11, x 12]
      = !![0, x 12, -x 11, x 10;
           -x 12, 0, x 10, x 11;
           x 11, -x 10, 0, x 12;
           -x 10, -x 11, -x 12, 0]
    ∧ ![processFunc sqrt lastBelief x dt 10, processFunc sqrt lastBelief x dt 11,
        processFunc sqrt lastBelief x dt 12] = ![x 10, x 11, x 12] := by
  have hO : generateBigOmegaMat ![x 10, x 11, x 12]
      = !![0, x 12, -x 11, x 10;
           -x 12, 0, x 10, x 11;
           x 11, -x 10, 0, x 12;
           -x 10, -x 11, -x 12, 0] := rfl
  refine ⟨?_, hO, ?_⟩
  · funext i
    rw [processFunc_quaternion, hO]
    congr 1
    funext j
    rw [Matrix.smul_mulVec_assoc, Pi.smul_apply, smul_eq_mul]
  · obtain ⟨w0, w1, w2⟩ := processFunc_angular_velocity sqrt lastBelief x dt
    rw [w0, w1, w2]

/-- C13: `observationFunc` returns the first 10 entries of the state vector of a
`QuadState`, in order: position, quaternion (x, y, z, w), velocity. -/
theorem observationFunc_quadState {F : Type} (s : QuadState F) :
    observationFunc 10 (by decide) (quadStateToEigen s)
      = ![s.position 0, s.position 1, s.position 2,
          s.quaternion.x, s.quaternion.y, s.quaternion.z, s.quaternion.w,
          s.velocity 0, s.velocity 1, s.velocity 2] := by
  funext i
  fin_cases i <;> rfl

theorem squaredNorm_pos_of_ne_zero {n : Nat} (v : Fin n → K) (h : v ≠ 0) :
    0 < squaredNorm v := by
  obtain ⟨i, hi⟩ := Function.ne_iff.1 h
  have h1 := Finset.single_le_sum (f := fun j => v j * v j)
    (fun j _ => mul_self_nonneg (v j)) (Finset.mem_univ i)
  have h2 : 0 < v i * v i := mul_self_pos.2 hi
  exact lt_of_lt_of_le h2 h1

theorem squaredNorm_normalized (v : Fin 4 → ℝ) (h : 0 < squaredNorm v) :
    squaredNorm (Eigen.normalized Real.sqrt v) = 1 := by
  have hs : Real.sqrt (squaredNorm v) * Real.sqrt (squaredNorm v) = squaredNorm v :=
    Real.mul_self_sqrt h.le
  have hn : Eigen.normalized Real.sqrt v = fun i => v i / Real.sqrt (squaredNorm v) := by
    unfold Eigen.normalized
    simp [h]
  rw [hn]
  have hterm : ∀ i, v i / Real.sqrt (squaredNorm v) * (v i / Real.sqrt (squaredNorm v))
      = (v i * v i) / squaredNorm v := by
    intro i
    rw [div_mul_div_comm, hs]
  unfold squaredNorm at hterm ⊢
  simp only [hterm]
  rw [← Finset.sum_div]
  exact div_self h.ne'

/-- The quaternion block of the output of `processFunc` has norm one when the quaternion
block of the input is not zero. -/
theorem processFunc_quaternion_norm (lastBelief : QuadBelief ℝ) (x : Fin 16 → ℝ) (dt : ℝ)
    (hq : ![x 3, x 4, x 5, x 6] ≠ 0) :
    Eigen.norm Real.sqrt
        ![processFunc Real.sqrt lastBelief x dt 3, processFunc Real.sqrt lastBelief x dt 4,
          processFunc Real.sqrt lastBelief x dt 5, processFunc Real.sqrt lastBelief x dt 6]
      = 1 := by
  have h1 := squaredNorm_pos_of_ne_zero _ hq
  have h2 := squaredNorm_normalized _ h1
  have h3 : 0 < squaredNorm
      (fun i => Eigen.normalized Real.sqrt ![x 3, x 4, x 5, x 6] i
        + (((1 / 2 : ℝ) • generateBigOmegaMat ![x 10, x 11, x 12]).mulVec
            (Eigen.normalized Real.sqrt ![x 3, x 4, x 5, x 6])) i * dt) := by
    rw [squaredNorm_integrated, h2]
    positivity
  have hout : ![processFunc Real.sqrt lastBelief x dt 3, processFunc Real.sqrt lastBelief x dt 4,
      processFunc Real.sqrt lastBelief x dt 5, processFunc Real.sqrt lastBelief x dt 6]
      = Eigen.normalized Real.sqrt
          (fun i => Eigen.normalized Real.sqrt ![x 3, x 4, x 5, x 6] i
            + (((1 / 2 : ℝ) • generateBigOmegaMat ![x 10, x 11, x 12]).mulVec
                (Eigen.normalized Real.sqrt ![x 3, x 4, x 5, x 6])) i * dt) := by
    funext i
    exact processFunc_quaternion Real.sqrt lastBelief x dt i
  rw [hout]
  unfold Eigen.norm
  rw [squaredNorm_normalized _ h3, Real.sqrt_one]

/-- C12: for every state vector whose quaternion block (entries 3..6) is not zero, every
angular velocity and every `dt`, the quaternion block of the output of `processFunc` has
norm exactly one over the reals. -/
theorem processFunc_unit_quaternion (lastBelief : QuadBelief ℝ) (x : Fin 16 → ℝ) (dt : ℝ)
    (hq : ![x 3, x 4, x 5, x 6] ≠ 0) :
    Eigen.norm Real.sqrt
        ![processFunc Real.sqrt lastBelief x dt 3, processFunc Real.sqrt lastBelief x dt 4,
          processFunc Real.sqrt lastBelief x dt 5, processFunc Real.sqrt lastBelief x dt 6]
      = 1 :=
  processFunc_quaternion_norm lastBelief x dt hq

/-- Witness of C12: the initial state, whose quaternion is `(0,0,0,1)`, with `dt = 1`. -/
theorem processFunc_unit_quaternion_witness :
    Eigen.norm Real.sqrt
        ![processFunc Real.sqrt (⟨0, 0, initState, initCov⟩ : QuadBelief ℝ)
            (quadStateToEigen initState) 1 3,
          processFunc Real.sqrt (⟨0, 0, initState, initCov⟩ : QuadBelief ℝ)
            (quadStateToEigen initState) 1 4,
          processFunc Real.sqrt (⟨0, 0, initState, initCov⟩ : QuadBelief ℝ)
            (quadStateToEigen initState) 1 5,
          processFunc Real.sqrt (⟨0, 0, initState, initCov⟩ : QuadBelief ℝ)
            (quadStateToEigen initState) 1 6]
      = 1 :=
  processFunc_unit_quaternion (⟨0, 0, initState, initCov⟩ : QuadBelief ℝ)
    (quadStateToEigen initState) 1
    (by
      intro h
      have h6 : quadStateToEigen (initState : QuadState ℝ) 6 = 1 := rfl
      have := congrFun h 3
      simp [h6] at this)

/-- C21: `Ω = generateBigOmegaMat(ω)` is skew-symmetric and `Ω·Ω = −‖ω‖²·I`; hence
`‖q + ½·Ω·q·dt‖² = ‖q‖²·(1 + dt²·‖ω‖²/4)`, and the integrated quaternion is not zero
when `q` is not zero. -/
theorem generateBigOmegaMat_skew_and_norm (w : Fin 3 → K) :
    (generateBigOmegaMat w).transpose = -generateBigOmegaMat w
      ∧ generateBigOmegaMat w * generateBigOmegaMat w
        = -(w 0 ^ 2 + w 1 ^ 2 + w 2 ^ 2) • (1 : Matrix (Fin 4) (Fin 4) K)
      ∧ (∀ (q : Fin 4 → K) (dt : K),
          squaredNorm (fun i => q i + (((1 / 2 : K) • generateBigOmegaMat w).mulVec q) i * dt)
            = squaredNorm q * (1 + dt ^ 2 * (w 0 ^ 2 + w 1 ^ 2 + w 2 ^ 2) / 4))
      ∧ ∀ (q : Fin 4 → K) (dt : K), q ≠ 0 →
          (fun i => q i + (((1 / 2 : K) • generateBigOmegaMat w).mulVec q) i * dt) ≠ 0 := by
  refine ⟨?_, ?_, fun q dt => squaredNorm_integrated q w dt, ?_⟩
  · ext i j
    fin_cases i <;> fin_cases j <;> simp [generateBigOmegaMat]
  · ext i j
    fin_cases i <;> fin_cases j <;>
      simp [generateBigOmegaMat, Matrix.mul_apply, Fin.sum_univ_four, Matrix.one_apply] <;> ring
  · intro q dt hq h0
    have hpos := squaredNorm_pos_of_ne_zero q hq
    have hsq := squaredNorm_integrated q w dt
    rw [h0] at hsq
    have hz : squaredNorm (0 : Fin 4 → K) = 0 := by simp [squaredNorm]
    rw [hz] at hsq
    have hfac : 0 < 1 + dt ^ 2 * (w 0 ^ 2 + w 1 ^ 2 + w 2 ^ 2) / 4 := by positivity
    have := mul_pos hpos hfac
    rw [← hsq] at this
    exact lt_irrefl _ this

/-- C22: `eigenToQuadState` and `quadStateToEigen` are inverse to each other, with the
position at indices 0..2, the quaternion (x, y, z, w) at 3..6, the velocity at 7..9, the
angular velocity at 10..12 and the acceleration at 13..15. -/
theorem quadState_round_trip {F : Type} :
    (∀ s : QuadState F, eigenToQuadState (quadStateToEigen s) = s)
      ∧ (∀ x : Fin 16 → F, quadStateToEigen (eigenToQuadState x) = x)
      ∧ ∀ s : QuadState F, quadStateToEigen s
          = ![s.position 0, s.position 1, s.position 2,
              s.quaternion.coeffs 0, s.quaternion.coeffs 1, s.quaternion.coeffs 2,
              s.quaternion.coeffs 3,
              s.velocity 0, s.velocity 1, s.velocity 2,
              s.angular_velocity 0, s.angular_velocity 1, s.angular_velocity 2,
              s.acceleration 0, s.acceleration 1, s.acceleration 2] := by
  have h3 : ∀ v : Fin 3 → F, ![v 0, v 1, v 2] = v := by
    intro v
    funext i
    fin_cases i <;> rfl
  have h4 : ∀ v : Fin 4 → F, ![v 0, v 1, v 2, v 3] = v := by
    intro v
    funext i
    fin_cases i <;> rfl
  refine ⟨?_, ?_, fun s => rfl⟩
  · intro s
    obtain ⟨p, ⟨q⟩, v, w, a⟩ := s
    show (⟨![p 0, p 1, p 2], ⟨![q 0, q 1, q 2, q 3]⟩, ![v 0, v 1, v 2], ![w 0, w 1, w 2],
      ![a 0, a 1, a 2]⟩ : QuadState F) = ⟨p, ⟨q⟩, v, w, a⟩
    rw [h3 p, h3 v, h3 w, h3 a, h4 q]
  · intro x
    funext i
    fin_cases i <;> rfl

end Orientation

section Publishing

open Eigen UnscentedKf QuadUkf

/-- One step of a bounded history that already holds the `N` newest items. -/
theorem history_step {α : Type} (N : Nat) (a : α) (rl : List α) :
    (if (a :: rl.take N).length > N then (a :: rl.take N).dropLast else a :: rl.take N)
      = (a :: rl).take N := by
  by_cases h : N ≤ rl.length
  · have hlen : (a :: rl.take N).length = N + 1 := by
      simp [List.length_take, h]
    rw [if_pos (by omega), List.dropLast_eq_take, hlen]
    cases N with
    | zero => simp
    | succ k =>
      simp [List.take_take]
  · have hlen : (rl.take N) = rl := List.take_of_length_le (by omega)
    rw [hlen, if_neg (by simp; omega)]
    exact (List.take_of_length_le (by simp; omega)).symm

/-- A bounded history fed from the empty list holds the `N` newest items, newest first. -/
theorem history_foldl {α : Type} (N : Nat) (calls : List α) :
    calls.foldl (fun poses x =>
        if (x :: poses).length > N then (x :: poses).dropLast else x :: poses) []
      = calls.reverse.take N := by
  induction calls using List.reverseRecOn with
  | nil => simp
  | append_singleton l a ih =>
    rw [List.foldl_append, ih]
    simp only [List.foldl_cons, List.foldl_nil, List.reverse_append, List.reverse_singleton,
      List.singleton_append]
    exact history_step N a l.reverse

theorem updatePoseArray_foldl {K : Type} (calls : List (PoseWithCovarianceStamped K)) :
    calls.foldl updatePoseArray []
      = ((calls.map (fun p => p.pose)).reverse).take POSE_ARRAY_SIZE := by
  rw [← history_foldl POSE_ARRAY_SIZE (calls.map (fun p => p.pose)), List.foldl_map]
  rfl

/-- C15: starting from the empty history, after the calls `calls` of `updatePoseArray`
(in call order) the history holds the `min(k, 10000)` most recent poses, newest first;
its length never exceeds `POSE_ARRAY_SIZE = 10000`, and its first element is the pose of
the most recent call. -/
theorem updatePoseArray_history {K : Type} (calls : List (PoseWithCovarianceStamped K)) :
    calls.foldl updatePoseArray []
        = ((calls.map (fun p => p.pose)).reverse).take POSE_ARRAY_SIZE
      ∧ (calls.foldl updatePoseArray []).length = min calls.length 10000
      ∧ (calls.foldl updatePoseArray []).length ≤ 10000
      ∧ ∀ p : PoseWithCovarianceStamped K,
          ((calls ++ [p]).foldl updatePoseArray []).head? = some p.pose := by
  have hlen : (calls.foldl updatePoseArray []).length = min calls.length 10000 := by
    rw [updatePoseArray_foldl, List.length_take, List.length_reverse, List.length_map,
      min_comm]
    rfl
  refine ⟨updatePoseArray_foldl calls, hlen, ?_, ?_⟩
  · rw [hlen]
    exact min_le_right _ _
  · intro p
    rw [updatePoseArray_foldl]
    simp [POSE_ARRAY_SIZE]

end Publishing

section Ingest

open Eigen UnscentedKf QuadUkf

theorem toRotationMatrix_identity {K : Type} [LinearOrderedField K] :
    (⟨![0, 0, 0, 1]⟩ : Quaterniond K).toRotationMatrix = 1 := by
  ext i j
  fin_cases i <;> fin_cases j <;>
    simp [Quaterniond.toRotationMatrix, Quaterniond.x, Quaterniond.y, Quaterniond.z,
      Quaterniond.w, Matrix.vecHead, Matrix.vecTail]

/-- With the identity orientation stored, the acceleration written by `imuCallback` is
the remapped reading with `9.81` added to its z entry. -/
theorem imuWorkingBelief_acceleration_identity {K : Type} [LinearOrderedField K]
    (lastBelief : QuadBelief K) (msg_in : Imu K)
    (hq : lastBelief.state.quaternion = ⟨![0, 0, 0, 1]⟩) :
    (imuWorkingBelief lastBelief msg_in).state.acceleration
      = ![-msg_in.linear_acceleration 0, msg_in.linear_acceleration 1,
          msg_in.linear_acceleration 2 + 981 / 100] := by
  simp only [imuWorkingBelief, hq, toRotationMatrix_identity, inverse_eq_inv, inv_one,
    Matrix.one_mulVec]
  funext i
  fin_cases i <;> simp [GRAVITY_ACCEL]

/-- Counterexample to C16 as stated: with the initial belief (identity orientation) and
`f_raw = (0, 0, 9.81)` the acceleration written into the working state is
`(0, 0, 19.62)`, not `(0, 0, 0)`. -/
theorem imuCallback_hover_counterexample :
    (imuWorkingBelief (⟨0, 1 / 10000, initState, initCov⟩ : QuadBelief ℝ)
        ⟨⟨0, 0⟩, ![0, 0, 0], ![0, 0, 981 / 100]⟩).state.acceleration = ![0, 0, 1962 / 100]
      ∧ (imuWorkingBelief (⟨0, 1 / 10000, initState, initCov⟩ : QuadBelief ℝ)
        ⟨⟨0, 0⟩, ![0, 0, 0], ![0, 0, 981 / 100]⟩).state.acceleration ≠ ![0, 0, 0] := by
  have h := imuWorkingBelief_acceleration_identity
    (⟨0, 1 / 10000, initState, initCov⟩ : QuadBelief ℝ)
    ⟨⟨0, 0⟩, ![0, 0, 0], ![0, 0, 981 / 100]⟩ rfl
  have e : (imuWorkingBelief (⟨0, 1 / 10000, initState, initCov⟩ : QuadBelief ℝ)
      ⟨⟨0, 0⟩, ![0, 0, 0], ![0, 0, 981 / 100]⟩).state.acceleration = ![0, 0, 1962 / 100] := by
    rw [h]
    funext i
    fin_cases i <;> norm_num
  refine ⟨e, ?_⟩
  rw [e]
  intro hz
  have := congrFun hz 2
  norm_num at this

/-- C16 (amended): for a stored belief with identity orientation, the acceleration that
`imuCallback` writes after the axis remap and the subtraction `a − R(q)⁻¹·g_world`,
`g_world = (0, 0, −9.81)`, is `(−f.x, f.y, f.z + 9.81)`: `(0, 0, 19.62)` for
`f_raw = (0, 0, 9.81)`, and `(0, 0, 0)` for `f_raw = (0, 0, −9.81)`. -/
theorem imuCallback_gravity_identity {K : Type} [LinearOrderedField K]
    (lastBelief : QuadBelief K) (msg_in : Imu K)
    (hq : lastBelief.state.quaternion = ⟨![0, 0, 0, 1]⟩) :
    (imuWorkingBelief lastBelief msg_in).state.acceleration
        = ![-msg_in.linear_acceleration 0, msg_in.linear_acceleration 1,
            msg_in.linear_acceleration 2 + 981 / 100]
      ∧ (msg_in.linear_acceleration = ![0, 0, 981 / 100] →
          (imuWorkingBelief lastBelief msg_in).state.acceleration = ![0, 0, 1962 / 100])
      ∧ (msg_in.linear_acceleration = ![0, 0, -(981 / 100)] →
          (imuWorkingBelief lastBelief msg_in).state.acceleration = ![0, 0, 0]) := by
  have h := imuWorkingBelief_acceleration_identity lastBelief msg_in hq
  refine ⟨h, ?_, ?_⟩
  · intro hf
    rw [h, hf]
    funext i
    fin_cases i <;> norm_num
  · intro hf
    rw [h, hf]
    funext i
    fin_cases i <;> norm_num

/-- Witness of C16 (amended): the initial belief and the reading `(0, 0, −9.81)`. -/
theorem imuCallback_gravity_identity_witness :
    (imuWorkingBelief (⟨0, 1 / 10000, initState, initCov⟩ : QuadBelief ℝ)
        ⟨⟨0, 0⟩, ![0, 0, 0], ![0, 0, -(981 / 100)]⟩).state.acceleration = ![0, 0, 0] :=
  (imuCallback_gravity_identity (⟨0, 1 / 10000, initState, initCov⟩ : QuadBelief ℝ)
    ⟨⟨0, 0⟩, ![0, 0, 0], ![0, 0, -(981 / 100)]⟩ rfl).2.2 rfl

theorem poseMeasurement_position {K : Type} [LinearOrderedField K] (sqrt : K → K)
    (lastBelief : QuadBelief K) (lastPoseMsg msg_in : PoseWithCovarianceStamped K) :
    ![poseMeasurement sqrt lastBelief lastPoseMsg msg_in 0,
        poseMeasurement sqrt lastBelief lastPoseMsg msg_in 1,
        poseMeasurement sqrt lastBelief lastPoseMsg msg_in 2]
      = ![-msg_in.pose.position 0, msg_in.pose.position 1, msg_in.pose.position 2] := by
  funext i
  fin_cases i <;> rfl

theorem poseMeasurement_quaternion {K : Type} [LinearOrderedField K] (sqrt : K → K)
    (lastBelief : QuadBelief K) (lastPoseMsg msg_in : PoseWithCovarianceStamped K) :
    ![poseMeasurement sqrt lastBelief lastPoseMsg msg_in 3,
        poseMeasurement sqrt lastBelief lastPoseMsg msg_in 4,
        poseMeasurement sqrt lastBelief lastPoseMsg msg_in 5,
        poseMeasurement sqrt lastBelief lastPoseMsg msg_in 6]
      = (checkQuat sqrt lastBelief.state.quaternion
          ⟨![msg_in.pose.orientation.w, -msg_in.pose.orientation.z,
            msg_in.pose.orientation.y, msg_in.pose.orientation.x]⟩).coeffs := by
  funext i
  fin_cases i <;> rfl

/-- On a next quaternion of norm one `checkQuat` returns it or its negation. -/
theorem checkQuat_eq_or_neg (q_prev q_new : Quaterniond ℝ)
    (hnew : Eigen.norm Real.sqrt q_new.coeffs = 1) :
    (checkQuat Real.sqrt q_prev q_new).coeffs = q_new.coeffs
      ∨ (checkQuat Real.sqrt q_prev q_new).coeffs = -q_new.coeffs := by
  unfold checkQuat Quaterniond.normalized
  simp only [normalized_of_norm_one _ hnew]
  split_ifs
  · exact Or.inl rfl
  · exact Or.inr rfl

/-- C17: for a pose event with position `p_raw` and unit orientation `q_raw`, the
measurement built by `poseCallback` has position `(−p_raw.x, p_raw.y, p_raw.z)` and
quaternion entries equal to `checkQuat(stored orientation, (w_raw, −z_raw, y_raw, x_raw))`,
which is the permuted quaternion or its negation. -/
theorem poseMeasurement_remap (lastBelief : QuadBelief ℝ)
    (lastPoseMsg msg_in : PoseWithCovarianceStamped ℝ)
    (hunit : Eigen.norm Real.sqrt msg_in.pose.orientation.coeffs = 1) :
    ![poseMeasurement Real.sqrt lastBelief lastPoseMsg msg_in 0,
        poseMeasurement Real.sqrt lastBelief lastPoseMsg msg_in 1,
        poseMeasurement Real.sqrt lastBelief lastPoseMsg msg_in 2]
      = ![-msg_in.pose.position 0, msg_in.pose.position 1, msg_in.pose.position 2]
    ∧ ![poseMeasurement Real.sqrt lastBelief lastPoseMsg msg_in 3,
        poseMeasurement Real.sqrt lastBelief lastPoseMsg msg_in 4,
        poseMeasurement Real.sqrt lastBelief lastPoseMsg msg_in 5,
        poseMeasurement Real.sqrt lastBelief lastPoseMsg msg_in 6]
      = (checkQuat Real.sqrt lastBelief.state.quaternion
          ⟨![msg_in.pose.orientation.w, -msg_in.pose.orientation.z,
            msg_in.pose.orientation.y, msg_in.pose.orientation.x]⟩).coeffs
    ∧ (![poseMeasurement Real.sqrt lastBelief lastPoseMsg msg_in 3,
          poseMeasurement Real.sqrt lastBelief lastPoseMsg msg_in 4,
          poseMeasurement Real.sqrt lastBelief lastPoseMsg msg_in 5,
          poseMeasurement Real.sqrt lastBelief lastPoseMsg msg_in 6]
        = ![msg_in.pose.orientation.w, -msg_in.pose.orientation.z,
            msg_in.pose.orientation.y, msg_in.pose.orientation.x]
      ∨ ![poseMeasurement Real.sqrt lastBelief lastPoseMsg msg_in 3,
          poseMeasurement Real.sqrt lastBelief lastPoseMsg msg_in 4,
          poseMeasurement Real.sqrt lastBelief lastPoseMsg msg_in 5,
          poseMeasurement Real.sqrt lastBelief lastPoseMsg msg_in 6]
        = -![msg_in.pose.orientation.w, -msg_in.pose.orientation.z,
            msg_in.pose.orientation.y, msg_in.pose.orientation.x]) := by
  have hperm : Eigen.norm Real.sqrt
      (Quaterniond.coeffs (⟨![msg_in.pose.orientation.w, -msg_in.pose.orientation.z,
        msg_in.pose.orientation.y, msg_in.pose.orientation.x]⟩ : Quaterniond ℝ)) = 1 := by
    rw [← hunit]
    unfold Eigen.norm
    congr 1
    rw [squaredNorm_four, squaredNorm_four]
    simp [Quaterniond.x, Quaterniond.y, Quaterniond.z, Quaterniond.w]
    ring
  refine ⟨poseMeasurement_position _ _ _ _, poseMeasurement_quaternion _ _ _ _, ?_⟩
  rw [poseMeasurement_quaternion]
  exact checkQuat_eq_or_neg lastBelief.state.quaternion _ hperm

/-- Witness of C17: the constructed estimator and a pose event at `(1, 2, 3)` with the
identity orientation `(x, y, z, w) = (0, 0, 0, 1)`. -/
theorem poseMeasurement_remap_witness :
    ![poseMeasurement Real.sqrt (construct (0 : ℝ)).lastBelief (construct (0 : ℝ)).lastPoseMsg
          ⟨⟨1, 0⟩, ⟨![1, 2, 3], ⟨![0, 0, 0, 1]⟩⟩, fun _ => 0⟩ 0,
        poseMeasurement Real.sqrt (construct (0 : ℝ)).lastBelief (construct (0 : ℝ)).lastPoseMsg
          ⟨⟨1, 0⟩, ⟨![1, 2, 3], ⟨![0, 0, 0, 1]⟩⟩, fun _ => 0⟩ 1,
        poseMeasurement Real.sqrt (construct (0 : ℝ)).lastBelief (construct (0 : ℝ)).lastPoseMsg
          ⟨⟨1, 0⟩, ⟨![1, 2, 3], ⟨![0, 0, 0, 1]⟩⟩, fun _ => 0⟩ 2]
      = ![-(![1, 2, 3] : Fin 3 → ℝ) 0, (![1, 2, 3] : Fin 3 → ℝ) 1, (![1, 2, 3] : Fin 3 → ℝ) 2] :=
  (poseMeasurement_remap (construct (0 : ℝ)).lastBelief (construct (0 : ℝ)).lastPoseMsg
    ⟨⟨1, 0⟩, ⟨![1, 2, 3], ⟨![0, 0, 0, 1]⟩⟩, fun _ => 0⟩
    (by simp [Eigen.norm, squaredNorm, Fin.sum_univ_four])).1

end Ingest

section Degenerate

open Eigen UnscentedKf QuadUkf

variable {K : Type} [LinearOrderedField K]

/-- The belief returned by `correctState`, written with the terms of the specification
and the inverse as the code computes it. -/
theorem correctState_eq {n m L : Nat} (h : (Fin n → K) → (Fin m → K)) (wm wc : Fin L → K)
    (stateTf : Transform K n L) (z : Fin m → K) (R : Matrix (Fin m) (Fin m) K) :
    correctState h wm wc stateTf z R
      = ⟨stateTf.vector
          + (Spec.crossCovariance h stateTf.deviations stateTf.sigmaPoints wm wc
              * Eigen.inverse (Spec.innovationCovariance h stateTf.sigmaPoints wm wc R)).mulVec
            (z - Spec.sensorMean h stateTf.sigmaPoints wm),
        stateTf.covariance
          - Spec.crossCovariance h stateTf.deviations stateTf.sigmaPoints wm wc
              * Eigen.inverse (Spec.innovationCovariance h stateTf.sigmaPoints wm wc R)
              * (Spec.crossCovariance h stateTf.deviations stateTf.sigmaPoints wm wc).transpose⟩ := by
  simp only [correctState, unscentedSensorTransform_vector, unscentedSensorTransform_deviations,
    unscentedSensorTransform_covariance, Spec.crossCovariance]

/-- Counterexample to C18 as stated, in dimension one: sigma point `0`, weights `1`,
`R = 0`, so that `Pzz = 0` is singular. The specified correction fails with
`ObservationDegenerate`; `correctState` has no failure path and returns a belief. -/
theorem correctState_degenerate_counterexample :
    (unscentedSensorTransform 1 (observationFunc 1 (le_refl 1))
        (⟨![0], !![0], 1, !![0]⟩ : Transform ℝ 1 1).sigmaPoints (fun _ => 1) (fun _ => 1)
        0).covariance.det = 0
      ∧ Spec.correct (observationFunc 1 (le_refl 1)) (fun _ => 1) (fun _ => 1)
          (⟨![0], !![0], 1, !![0]⟩ : Transform ℝ 1 1) ![1] 0
        = Except.error Spec.ErrorKind.ObservationDegenerate
      ∧ (Except.ok (correctState (observationFunc 1 (le_refl 1)) (fun _ => 1) (fun _ => 1)
            (⟨![0], !![0], 1, !![0]⟩ : Transform ℝ 1 1) ![1] 0)
          : Except Spec.ErrorKind (Belief ℝ 1))
        ≠ Spec.correct (observationFunc 1 (le_refl 1)) (fun _ => 1) (fun _ => 1)
          (⟨![0], !![0], 1, !![0]⟩ : Transform ℝ 1 1) ![1] 0 := by
  have hdet : (Spec.innovationCovariance (observationFunc 1 (le_refl 1))
      (⟨![0], !![0], 1, !![0]⟩ : Transform ℝ 1 1).sigmaPoints (fun _ => (1 : ℝ)) (fun _ => 1)
      0).det = 0 := by
    simp [Spec.innovationCovariance, Spec.sensorDeviations, Spec.sensorMean, observationFunc,
      Matrix.det_unique, Matrix.mul_apply]
  have hspec : Spec.correct (observationFunc 1 (le_refl 1)) (fun _ => 1) (fun _ => 1)
      (⟨![0], !![0], 1, !![0]⟩ : Transform ℝ 1 1) ![1] 0
      = Except.error Spec.ErrorKind.ObservationDegenerate := by
    unfold Spec.correct
    simp only [hdet, if_true]
  refine ⟨?_, hspec, ?_⟩
  · rw [unscentedSensorTransform_covariance]
    exact hdet
  · rw [hspec]
    intro hne
    cases hne

/-- C18 (amended): `correctState` has no failure path. Where `Pzz` is invertible the
belief it returns is the one of the specified correction; it returns a belief for a
singular `Pzz` as well, and `poseCallback` always replaces the stored belief: its time
stamp becomes the time of the message, its `dt` the time since the last belief, its state
and covariance those returned by the correction. -/
theorem correctState_no_failure_path [FloorRing K] {n m L : Nat}
    (h : (Fin n → K) → (Fin m → K)) (wm wc : Fin L → K)
    (stateTf : Transform K n L) (z : Fin m → K) (R : Matrix (Fin m) (Fin m) K) :
    ((unscentedSensorTransform m h stateTf.sigmaPoints wm wc R).covariance.det ≠ 0 →
        Spec.correct h wm wc stateTf z R = Except.ok (correctState h wm wc stateTf z R))
      ∧ ∀ (sqrt : K → K)
          (correctState4 : (Fin 16 → K) → Matrix (Fin 16) (Fin 16) K → (Fin 10 → K)
            → Matrix (Fin 10) (Fin 10) K → Belief K 16)
          (self : Members K) (msg_in : PoseWithCovarianceStamped K),
        (poseCallback sqrt correctState4 self msg_in).lastBelief.timeStamp
            = msg_in.stamp.toSec K
          ∧ (poseCallback sqrt correctState4 self msg_in).lastBelief.dt
            = msg_in.stamp.toSec K - self.lastBelief.timeStamp
          ∧ (poseCallback sqrt correctState4 self msg_in).lastBelief.state
            = eigenToQuadState
                (correctState4
                  (quadStateToEigen (posePrediction sqrt self.lastBelief
                    (msg_in.stamp.toSec K - self.lastBelief.timeStamp)))
                  self.lastBelief.covariance
                  (poseMeasurement sqrt self.lastBelief self.lastPoseMsg msg_in)
                  self.R_SensorNoiseCov).state
          ∧ (poseCallback sqrt correctState4 self msg_in).lastBelief.covariance
            = (correctState4
                  (quadStateToEigen (posePrediction sqrt self.lastBelief
                    (msg_in.stamp.toSec K - self.lastBelief.timeStamp)))
                  self.lastBelief.covariance
                  (poseMeasurement sqrt self.lastBelief self.lastPoseMsg msg_in)
                  self.R_SensorNoiseCov).covariance := by
  constructor
  · intro hdet
    rw [unscentedSensorTransform_covariance] at hdet
    rw [correctState_eq]
    unfold Spec.correct
    simp only [hdet, if_false]
  · intro sqrt correctState4 self msg_in
    exact ⟨rfl, rfl, rfl, rfl⟩

/-- C19 (code defect): the matrix that `computeSigmaPoints` takes from the factorization
is `matrixL()`, whose diagonal is one. At the initial covariance `P = 0.01·I` the entry
(0,0) of `L·Lᵀ` is `1`, not `P(0,0) = 0.01`, whatever the factorization stores. -/
theorem matrixL_not_cholesky (ldlt : Matrix (Fin 16) (Fin 16) K → Matrix (Fin 16) (Fin 16) K) :
    (matrixL (ldlt initCov) * (matrixL (ldlt initCov)).transpose) 0 0 = 1
      ∧ (initCov : Matrix (Fin 16) (Fin 16) K) 0 0 = 1 / 100
      ∧ matrixL (ldlt initCov) * (matrixL (ldlt initCov)).transpose ≠ initCov := by
  have h1 : (matrixL (ldlt initCov) * (matrixL (ldlt initCov)).transpose) 0 0 = 1 := by
    rw [Matrix.mul_apply]
    simp only [Matrix.transpose_apply, ← pow_two]
    exact matrixL_row_zero_sq_sum (ldlt initCov)
  have h2 : (initCov : Matrix (Fin 16) (Fin 16) K) 0 0 = 1 / 100 := by
    simp [initCov]
  refine ⟨h1, h2, ?_⟩
  intro heq
  rw [heq, h2] at h1
  norm_num at h1

/-- C20 (code defect): `poseCallback` never assigns `lastPoseMsg`. After one pose event,
and after any sequence of pose events, the stored message is the one the estimator had
before; from the constructor it keeps the position `(0, 0, 1)` set there. -/
theorem poseCallback_lastPoseMsg_unchanged [FloorRing K] (sqrt : K → K)
    (correctState4 : (Fin 16 → K) → Matrix (Fin 16) (Fin 16) K → (Fin 10 → K)
      → Matrix (Fin 10) (Fin 10) K → Belief K 16) :
    (∀ (self : Members K) (msg_in : PoseWithCovarianceStamped K),
        (poseCallback sqrt correctState4 self msg_in).lastPoseMsg = self.lastPoseMsg)
      ∧ (∀ (self : Members K) (msgs : List (PoseWithCovarianceStamped K)),
        (msgs.foldl (poseCallback sqrt correctState4) self).lastPoseMsg = self.lastPoseMsg)
      ∧ ∀ (initTimeStamp : K) (msgs : List (PoseWithCovarianceStamped K)),
        (msgs.foldl (poseCallback sqrt correctState4) (construct initTimeStamp)).lastPoseMsg.pose.position
          = ![0, 0, 1] := by
  have hseq : ∀ (msgs : List (PoseWithCovarianceStamped K)) (self : Members K),
      (msgs.foldl (poseCallback sqrt correctState4) self).lastPoseMsg = self.lastPoseMsg := by
    intro msgs
    induction msgs with
    | nil => intro self; rfl
    | cons a l ih =>
      intro self
      rw [List.foldl_cons, ih]
      rfl
  refine ⟨fun _ _ => rfl, fun self msgs => hseq msgs self, ?_⟩
  intro t msgs
  rw [hseq]
  rfl

end Degenerate

end KalmanSense
